import Mathlib

/-!
Verification of the angular-unit conversion core of `cf/gridmappings.py`
(`convert_proj_angular_data_to_cf`, `convert_cf_angular_data_to_proj`,
`_make_proj_string_comp`) against its natural-language specification.

Modelling conventions:
* Python strings are Lean `String`s; the regex character class `\d` is
  modelled as the ASCII digits `0`-`9` (`Char.isDigit`).
* Python numbers held in `cf.Data` are modelled by `Mag`: `mint n` is a
  Python `int`, `mfloat m e` is a Python `float` whose exact value is the
  decimal fraction `m / 10^e` (every value the converter parses or renders
  is such a decimal fraction), and `mconv m e` is the `float` produced by
  the radians-to-degrees unit conversion applied to the value `m / 10^e`.
* `cf.Units`/`cf.Data` live in this repository but outside the sources in
  scope, so the operations taken from them (`Units.conform`, scalar
  extraction and string rendering of the scalar) are modelled from the
  spec, as noted on each definition.
* A raised `ValueError`/`TypeError` is modelled by an `Option` result of
  `none`.
-/

namespace GridMappings

/-! ## Digit strings and their numeric value -/

/-- Value of a single ASCII digit character. -/
def digitVal (c : Char) : ℕ := c.toNat - '0'.toNat

/-- The most-significant-digit-first numeric value of a digit string,
exactly how Python `int` reads a digit-only string. -/
def digitsToNat (l : List Char) : ℕ := l.foldl (fun a c => 10 * a + digitVal c) 0

/-- The digit character for a value `0 ≤ d ≤ 9` (other inputs map to '0'). -/
def digitChar (d : ℕ) : Char :=
  match d with
  | 0 => '0' | 1 => '1' | 2 => '2' | 3 => '3' | 4 => '4'
  | 5 => '5' | 6 => '6' | 7 => '7' | 8 => '8' | _ => '9'

/-- Least-significant-first digits of a natural number, with structural
fuel (so the kernel can evaluate it); the fuel is always sufficient when
it is at least the number itself, since `n / 10 < n`. -/
def natToRevDigitsAux : ℕ → ℕ → List Char
  | _, 0 => []
  | 0, _ + 1 => []
  | fuel + 1, n + 1 =>
    digitChar ((n + 1) % 10) :: natToRevDigitsAux fuel ((n + 1) / 10)

/-- Least-significant-first digits of a positive natural number. -/
def natToRevDigits (n : ℕ) : List Char := natToRevDigitsAux n n

/-- Decimal rendering of a natural number, exactly Python `str` on a
non-negative `int`. -/
def natToDigits (n : ℕ) : List Char :=
  if n = 0 then ['0'] else (natToRevDigits n).reverse

/-- Decimal rendering of a Python `int` (possibly negative). -/
def intStr (n : ℤ) : String :=
  (if n < 0 then "-" else "") ++ String.mk (natToDigits n.natAbs)

/-- Exactly `e` decimal digits of `a % 10^e`, most significant first:
the zero-padded fractional part of a decimal rendering. -/
def natToPadded : ℕ → ℕ → List Char
  | 0, _ => []
  | e + 1, a => natToPadded e (a / 10) ++ [digitChar (a % 10)]

/-! ## The regex `(-?\d+(\.\d*)?)([rRdD°]?)`, matched in full -/

/-- The unit-suffix characters accepted by the regex character class
`[rRdD°]`. -/
def suffixChars : List Char := ['r', 'R', 'd', 'D', '°']

/-- The groups of a full match of `(-?\d+(\.\d*)?)([rRdD°]?)`:
`neg` is the optional leading sign, `intDigits` the digits of `\d+`,
`fracDigits` the digits after the decimal point when the group
`(\.\d*)?` matched (possibly empty, as in `"1."`), and `suffix` the
optional unit-suffix character. -/
structure ProjForm where
  neg : Bool
  intDigits : List Char
  fracDigits : Option (List Char)
  suffix : Option Char
deriving Repr, DecidableEq

/-- The exact character string a `ProjForm` stands for. -/
def ProjForm.render (f : ProjForm) : List Char :=
  (if f.neg then ['-'] else []) ++ f.intDigits ++
    (match f.fracDigits with | none => [] | some fs => '.' :: fs) ++
    (match f.suffix with | none => [] | some c => [c])

/-- The declarative grammar: a `ProjForm` is well formed when its digit
fields hold only digits, `\d+` is nonempty, and the suffix is drawn from
`[rRdD°]`. -/
def ProjForm.WF (f : ProjForm) : Bool :=
  !f.intDigits.isEmpty && f.intDigits.all Char.isDigit &&
    (match f.fracDigits with | none => true | some fs => fs.all Char.isDigit) &&
    (match f.suffix with | none => true | some c => decide (c ∈ suffixChars))

/-- Longest digit prefix and the remainder of a character list. -/
def spanDigits : List Char → List Char × List Char
  | [] => ([], [])
  | c :: cs =>
    if c.isDigit then
      let p := spanDigits cs
      (c :: p.1, p.2)
    else ([], c :: cs)

/-- Full-match parser for `\d+(\.\d*)?[rRdD°]?` after the optional sign
has been consumed. -/
def parseAfterSign (neg : Bool) (cs : List Char) : Option ProjForm :=
  let p := spanDigits cs
  if p.1.isEmpty then none
  else
    match p.2 with
    | [] => some ⟨neg, p.1, none, none⟩
    | '.' :: rest =>
      let q := spanDigits rest
      match q.2 with
      | [] => some ⟨neg, p.1, some q.1, none⟩
      | [c] => if c ∈ suffixChars then some ⟨neg, p.1, some q.1, some c⟩ else none
      | _ => none
    | [c] => if c ∈ suffixChars then some ⟨neg, p.1, none, some c⟩ else none
    | _ => none

/-- Full-match parsing of the character list of the input: an optional
leading sign, then `\d+(\.\d*)?[rRdD°]?`. -/
def parseProjChars : List Char → Option ProjForm
  | [] => none
  | c :: rest =>
    if c = '-' then parseAfterSign true rest
    else parseAfterSign false (c :: rest)

/-- `re.fullmatch` of `(-?\d+(\.\d*)?)([rRdD°]?)` against a string:
`some` groups on a full match, `none` otherwise. -/
def parseProj (s : String) : Option ProjForm :=
  parseProjChars s.data

/-! ## The number and data model -/

/-- A Python number as held in `cf.Data` by the converters.
`mint n` is an `int`; `mfloat m e` is a `float` whose exact value is
`m / 10^e`; `mconv m e` is the `float` that `Units.conform` returns for
the radians value `m / 10^e` converted to degrees, i.e. the value
`(m / 10^e) * (180 / π)`. -/
inductive Mag where
  | mint (n : ℤ)
  | mfloat (m : ℤ) (e : ℕ)
  | mconv (m : ℤ) (e : ℕ)
deriving Repr, DecidableEq

/-- The exact numeric value of a `Mag`. The `mconv` case is modelled
from the spec: `Units.conform` from "radians" to "degrees" multiplies by
the exact radian-degree conversion factor `180 / π`. -/
noncomputable def Mag.val : Mag → ℝ
  | .mint n => n
  | .mfloat m e => (m : ℝ) / 10 ^ e
  | .mconv m e => ((m : ℝ) / 10 ^ e) * (180 / Real.pi)

/-- Whether the Python number is an `int` (`True`) or a `float`. -/
def Mag.isIntTyped : Mag → Bool
  | .mint _ => true
  | _ => false

/-- Modelled from the spec: `cf.Data`, a sized array of one Python
number together with optional units (`cf.Units`); only its size, its
scalar value and its units string are used by the converters. -/
structure Data where
  size : ℕ
  mag : Mag
  units : Option String
deriving Repr, DecidableEq

/-- Truthiness of the optional `context` string argument (`None` and the
empty string are falsy in Python). -/
def truthy : Option String → Bool
  | none => false
  | some s => !s.isEmpty

/-- Modelled from the spec: `Units.conform(x, Units("radians"),
Units("degrees"))` converts the magnitude from radians to degrees by the
exact factor `180 / π` and returns a `float`. Only ever applied to the
just-parsed `mint`/`mfloat` magnitudes, as in the source. -/
def unitsConformRadiansToDegrees : Mag → Mag
  | .mint n => .mconv n 0
  | .mfloat m e => .mconv m e
  | .mconv m e => .mconv m e

/-- The signed value of the numeral groups as read by Python `int` (no
decimal point present). -/
def ProjForm.intValue (f : ProjForm) : ℤ :=
  (if f.neg then -1 else 1) * (digitsToNat f.intDigits : ℤ)

/-- The signed mantissa of the numeral groups as read by Python `float`
(decimal point present with fractional digits `fs`): the value is
`mantissa / 10 ^ fs.length`. -/
def ProjForm.mantissa (f : ProjForm) (fs : List Char) : ℤ :=
  (if f.neg then -1 else 1) * (digitsToNat (f.intDigits ++ fs) : ℤ)

/-- The Python number built from the matched groups: `float(value)` when
the group `(\.\d*)?` matched, `int(value)` otherwise. -/
def ProjForm.numericValue (f : ProjForm) : Mag :=
  match f.fracDigits with
  | none => .mint f.intValue
  | some fs => .mfloat (f.mantissa fs) fs.length

/-- The exact rational value of the numeral (sign, integer digits and
fractional digits) of a well-formed `ProjForm`. -/
def ProjForm.ratVal (f : ProjForm) : ℚ :=
  (if f.neg then -1 else 1) *
    ((digitsToNat f.intDigits : ℚ) +
      match f.fracDigits with
      | none => 0
      | some fs => (digitsToNat fs : ℚ) / 10 ^ fs.length)

/-! ## `convert_proj_angular_data_to_cf` -/

/-- `convert_proj_angular_data_to_cf(proj_data, context)`: decode a PROJ
angular data component into `cf.Data` with CF units; `none` models the
raised `ValueError`. -/
def convert_proj_angular_data_to_cf (proj_data : String)
    (context : Option String) : Option Data :=
  let cf_units : String :=
    if context = some "lat" then "degrees_north"
    else if context = some "lon" then "degrees_east"
    else "degrees"
  match parseProj proj_data with
  | none => none
  | some f =>
    let numeric_value := f.numericValue
    if f.suffix = some 'r' ∨ f.suffix = some 'R' then
      if truthy context then
        some ⟨1, unitsConformRadiansToDegrees numeric_value, some cf_units⟩
      else
        some ⟨1, numeric_value, some "radians"⟩
    else if f.suffix ≠ none ∧
        ¬(f.suffix = some 'd' ∨ f.suffix = some 'D' ∨ f.suffix = some '°') then
      none
    else
      some ⟨1, numeric_value, some cf_units⟩

/-! ## Rendering Python numbers back to text -/

/-- Normalise the decimal fraction `m / 10^e` by cancelling trailing
factors of ten, so that the exponent is zero or the mantissa is not
divisible by ten. -/
def normDec : ℤ → ℕ → ℤ × ℕ
  | m, 0 => (m, 0)
  | m, e + 1 => if (10 : ℤ) ∣ m then normDec (m / 10) e else (m, e + 1)

/-- Modelled from the spec: the scalar value of a `float` of exact value
`m / 10^e` "rendered as a decimal string", exactly as Python `str`
renders such a `float` in its non-scientific range: the shortest decimal
digits, always keeping one fractional digit (`45.0`, `0.05`, `-1.5`). -/
def floatStr (m : ℤ) (e : ℕ) : String :=
  let p := normDec m e
  if p.2 = 0 then intStr p.1 ++ ".0"
  else
    (if p.1 < 0 then "-" else "") ++
      String.mk (natToDigits (p.1.natAbs / 10 ^ p.2)) ++ "." ++
      String.mk (natToPadded p.2 (p.1.natAbs % 10 ^ p.2))

/-- Modelled from the spec: `f"{data.data.array.item()}"`, the scalar of
the `cf.Data` rendered as a decimal string. The model renders the exact
`int` and decimal-fraction `float` values the converters handle; an
irrational `mconv` value has no exact decimal string, so the model leaves
it unrendered (`none`) — no claim feeds a converted value back in. -/
def Mag.render : Mag → Option String
  | .mint n => some (intStr n)
  | .mfloat m e => some (floatStr m e)
  | .mconv _ _ => none

/-! ## `convert_cf_angular_data_to_proj` -/

/-- `degrees_unit_prefix` from the source. -/
def degrees_unit_prefix : List String := ["degree", "degrees"]

/-- `itertools.product` of two string lists, pairs concatenated, in
Python's iteration order (second factor fastest). -/
def stringProduct (xs ys : List String) : List String :=
  (xs.map fun s => ys.map fun e => s ++ e).flatten

/-- `valid_cf_lat_units` from the source: the CF latitude units. -/
def valid_cf_lat_units : List String :=
  stringProduct degrees_unit_prefix ["_north", "_N", "N"]

/-- `valid_cf_lon_units` from the source: the CF longitude units. -/
def valid_cf_lon_units : List String :=
  stringProduct degrees_unit_prefix ["_east", "_E", "E"]

/-- `valid_degrees_units` from the source: every degree-family unit the
encoder accepts. -/
def valid_degrees_units : List String :=
  degrees_unit_prefix ++ valid_cf_lat_units ++ valid_cf_lon_units

/-- `convert_cf_angular_data_to_proj(data)`: encode singleton angular
`cf.Data` into a PROJ data component; `none` models the raised
`ValueError`. -/
def convert_cf_angular_data_to_proj (data : Data) : Option String :=
  if data.size ≠ 1 then none
  else
    match data.units with
    | none => none
    | some units_str =>
      if units_str ∈ valid_degrees_units then
        data.mag.render
      else if units_str = "radians" then
        (data.mag.render).map (fun s => s ++ "R")
      else none

/-! ## `_make_proj_string_comp` and `get_proj_string` -/

/-- A Python value held in a proj-string parameter mapping: a `str`, a
number, or an object whose `str()` raises `TypeError`. -/
inductive PyVal where
  | pstr (s : String)
  | pnum (m : Mag)
  | nonRepresentable
deriving Repr, DecidableEq

/-- `str(value)` on a parameter value: `none` models a raised
`TypeError`. A number renders as its decimal string. -/
def PyVal.toStr : PyVal → Option String
  | .pstr s => some s
  | .pnum m => m.render
  | .nonRepresentable => none

/-- The loop body of `_make_proj_string_comp`, threading the accumulated
`proj_string`. -/
def projStringFold : String → List (String × PyVal) → Option String
  | acc, [] => some acc
  | acc, (comp, value) :: rest =>
    match value.toStr with
    | none => none
    | some v => projStringFold (acc ++ " +" ++ comp ++ "=" ++ v) rest

/-- `_make_proj_string_comp(spec)`: concatenate `" +key=value"` for each
entry of the mapping in iteration order; `none` models the raised
`TypeError` for a value not convertible to a string. -/
def make_proj_string_comp (spec : List (String × PyVal)) : Option String :=
  projStringFold "" spec

/-- `PROJ_PREFIX` from the source. -/
def PROJ_PREFIX : String := "+proj"

/-- `get_proj_string` as written on each grid-mapping class:
`f"{PROJ_PREFIX}={self.proj_id}{parameters}"` with `parameters` built by
`_make_proj_string_comp` from the parameter mapping. -/
def get_proj_string (proj_id : String) (spec : List (String × PyVal)) :
    Option String :=
  (make_proj_string_comp spec).map
    (fun parameters => PROJ_PREFIX ++ "=" ++ proj_id ++ parameters)

/-- `DUMMY_PARAMS` from the source: `{"a": "b", "c": 0.0}`. -/
def DUMMY_PARAMS : List (String × PyVal) :=
  [("a", .pstr "b"), ("c", .pnum (.mfloat 0 1))]

/-- `Mercator.get_proj_string()`: `proj_id` is `"merc"` and the
parameter mapping passed is `DUMMY_PARAMS`. -/
def Mercator.get_proj_string : Option String :=
  GridMappings.get_proj_string "merc" DUMMY_PARAMS

/-! ## Lemmas about digit strings -/

theorem toNat_bounds_of_isDigit {c : Char} (h : c.isDigit = true) :
    48 ≤ c.toNat ∧ c.toNat ≤ 57 := by
  simpa [Char.isDigit] using h

theorem digitVal_lt_ten {c : Char} (h : c.isDigit = true) : digitVal c < 10 := by
  obtain ⟨h1, h2⟩ := toNat_bounds_of_isDigit h
  have h0 : '0'.toNat = 48 := rfl
  simp only [digitVal, h0]
  omega

theorem char_eq_of_toNat {c : Char} {d : Char} (h : c.toNat = d.toNat) : c = d := by
  exact Char.ext (UInt32.ext (by simpa [Char.toNat] using h))

theorem isDigit_digitChar {d : ℕ} (h : d < 10) : (digitChar d).isDigit = true := by
  interval_cases d <;> decide

theorem digitVal_digitChar {d : ℕ} (h : d < 10) : digitVal (digitChar d) = d := by
  interval_cases d <;> decide

theorem digitChar_digitVal {c : Char} (h : c.isDigit = true) :
    digitChar (digitVal c) = c := by
  obtain ⟨h1, h2⟩ := toNat_bounds_of_isDigit h
  have hv : digitVal c = c.toNat - 48 := rfl
  apply char_eq_of_toNat
  have : c.toNat = 48 ∨ c.toNat = 49 ∨ c.toNat = 50 ∨ c.toNat = 51 ∨
      c.toNat = 52 ∨ c.toNat = 53 ∨ c.toNat = 54 ∨ c.toNat = 55 ∨
      c.toNat = 56 ∨ c.toNat = 57 := by omega
  rcases this with h | h | h | h | h | h | h | h | h | h <;>
    simp [hv, h, digitChar]

theorem digitVal_eq_zero_iff {c : Char} (h : c.isDigit = true) :
    digitVal c = 0 ↔ c = '0' := by
  constructor
  · intro h0
    have := digitChar_digitVal h
    rw [h0] at this
    exact this.symm
  · intro h0; simp [h0, digitVal]

theorem digitsToNat_from (a : ℕ) (l : List Char) :
    l.foldl (fun a c => 10 * a + digitVal c) a =
      a * 10 ^ l.length + digitsToNat l := by
  induction l generalizing a with
  | nil => simp [digitsToNat]
  | cons c cs ih =>
    simp only [List.foldl_cons, digitsToNat, List.length_cons]
    rw [ih (10 * a + digitVal c), ih (10 * 0 + digitVal c)]
    ring

theorem digitsToNat_cons (c : Char) (l : List Char) :
    digitsToNat (c :: l) = digitVal c * 10 ^ l.length + digitsToNat l := by
  simp only [digitsToNat, List.foldl_cons]
  rw [digitsToNat_from]
  ring_nf
  simp [digitsToNat]

theorem digitsToNat_append (l₁ l₂ : List Char) :
    digitsToNat (l₁ ++ l₂) =
      digitsToNat l₁ * 10 ^ l₂.length + digitsToNat l₂ := by
  simp only [digitsToNat, List.foldl_append]
  rw [digitsToNat_from]
  rfl

theorem digitsToNat_concat (l : List Char) (c : Char) :
    digitsToNat (l ++ [c]) = 10 * digitsToNat l + digitVal c := by
  rw [digitsToNat_append]
  simp [digitsToNat]
  ring

theorem digitsToNat_lt (l : List Char) (h : l.all Char.isDigit = true) :
    digitsToNat l < 10 ^ l.length := by
  induction l with
  | nil => simp [digitsToNat]
  | cons c cs ih =>
    simp only [List.all_cons, Bool.and_eq_true] at h
    have h1 := digitVal_lt_ten h.1
    have h2 := ih h.2
    rw [digitsToNat_cons]
    simp only [List.length_cons, pow_succ]
    nlinarith [pow_pos (by norm_num : (0:ℕ) < 10) cs.length]

theorem natToRevDigitsAux_fuel {n : ℕ} :
    ∀ {f1 f2 : ℕ}, n ≤ f1 → n ≤ f2 →
      natToRevDigitsAux f1 n = natToRevDigitsAux f2 n := by
  induction n using Nat.strong_induction_on with
  | _ n ih =>
    intro f1 f2 h1 h2
    match n, f1, f2 with
    | 0, f1, f2 => cases f1 <;> cases f2 <;> rfl
    | n + 1, f1 + 1, f2 + 1 =>
      simp only [natToRevDigitsAux]
      congr 1
      have hd : (n + 1) / 10 < n + 1 :=
        Nat.div_lt_self (Nat.succ_pos n) (by norm_num)
      exact ih _ hd (by omega) (by omega)

theorem natToRevDigits_zero : natToRevDigits 0 = [] := rfl

theorem natToRevDigits_pos {n : ℕ} (h : 0 < n) :
    natToRevDigits n = digitChar (n % 10) :: natToRevDigits (n / 10) := by
  match n, h with
  | n + 1, _ =>
    show natToRevDigitsAux (n + 1) (n + 1) = _
    rw [natToRevDigitsAux]
    congr 1
    have hd : (n + 1) / 10 < n + 1 :=
      Nat.div_lt_self (Nat.succ_pos n) (by norm_num)
    exact natToRevDigitsAux_fuel (by omega) (le_refl _)

theorem digitsToNat_reverse_natToRevDigits (n : ℕ) :
    digitsToNat (natToRevDigits n).reverse = n := by
  induction n using Nat.strong_induction_on with
  | _ n ih =>
    rcases Nat.eq_zero_or_pos n with h0 | hpos
    · subst h0; simp [natToRevDigits_zero, digitsToNat]
    · rw [natToRevDigits_pos hpos]
      simp only [List.reverse_cons]
      rw [digitsToNat_concat,
        ih (n / 10) (Nat.div_lt_self hpos (by norm_num)),
        digitVal_digitChar (Nat.mod_lt n (by norm_num))]
      omega

theorem digitsToNat_natToDigits (n : ℕ) : digitsToNat (natToDigits n) = n := by
  unfold natToDigits
  by_cases h : n = 0
  · simp [h, digitsToNat, digitVal]
  · simp only [h, if_false]
    exact digitsToNat_reverse_natToRevDigits n

theorem natToRevDigits_all_digits (n : ℕ) :
    (natToRevDigits n).all Char.isDigit = true := by
  induction n using Nat.strong_induction_on with
  | _ n ih =>
    rcases Nat.eq_zero_or_pos n with h0 | hpos
    · subst h0; simp [natToRevDigits_zero]
    · rw [natToRevDigits_pos hpos]
      simp only [List.all_cons, Bool.and_eq_true]
      exact ⟨isDigit_digitChar (Nat.mod_lt n (by norm_num)),
        ih (n / 10) (Nat.div_lt_self hpos (by norm_num))⟩

theorem natToDigits_all_digits (n : ℕ) :
    (natToDigits n).all Char.isDigit = true := by
  unfold natToDigits
  by_cases h : n = 0
  · simp [h]
  · simp only [h, if_false, List.all_reverse]
    exact natToRevDigits_all_digits n

theorem natToDigits_ne_nil (n : ℕ) : natToDigits n ≠ [] := by
  unfold natToDigits
  by_cases h : n = 0
  · simp [h]
  · simp only [h, if_false, ne_eq, List.reverse_eq_nil_iff]
    rcases Nat.eq_zero_or_pos n with h0 | hpos
    · exact absurd h0 h
    · rw [natToRevDigits_pos hpos]; simp

theorem natToRevDigits_getLast?_ne_zero {n : ℕ} (h : 0 < n) :
    (natToRevDigits n).getLast? ≠ some '0' := by
  induction n using Nat.strong_induction_on with
  | _ n ih =>
    rw [natToRevDigits_pos h]
    rcases Nat.eq_zero_or_pos (n / 10) with hq | hq
    · have h10 : n % 10 ≠ 0 := by omega
      rw [hq]
      simp only [natToRevDigits_zero, List.getLast?_singleton, ne_eq,
        Option.some.injEq]
      intro hc
      have : digitVal (digitChar (n % 10)) = digitVal '0' := by rw [hc]
      rw [digitVal_digitChar (Nat.mod_lt n (by norm_num))] at this
      simp [digitVal] at this
      exact h10 this
    · rw [natToRevDigits_pos hq, List.getLast?_cons_cons,
        ← natToRevDigits_pos hq]
      exact ih (n / 10) (Nat.div_lt_self h (by norm_num)) hq

theorem natToDigits_head?_ne_zero {n : ℕ} (h : 0 < n) :
    (natToDigits n).head? ≠ some '0' := by
  unfold natToDigits
  simp only [Nat.pos_iff_ne_zero.mp h, if_false, List.head?_reverse]
  exact natToRevDigits_getLast?_ne_zero h

theorem digitsToNat_pos_of_head_ne_zero {l : List Char}
    (hd : l.all Char.isDigit = true) (hne : l ≠ [])
    (h0 : l.head? ≠ some '0') : 0 < digitsToNat l := by
  match l, hne with
  | c :: cs, _ =>
    simp only [List.head?_cons, ne_eq, Option.some.injEq] at h0
    simp only [List.all_cons, Bool.and_eq_true] at hd
    rw [digitsToNat_cons]
    have : digitVal c ≠ 0 := fun hv => h0 ((digitVal_eq_zero_iff hd.1).mp hv)
    have hp : 0 < (10 : ℕ) ^ cs.length := pow_pos (by norm_num) _
    positivity

theorem natToRevDigits_digitsToNat {l : List Char}
    (hd : l.all Char.isDigit = true)
    (h0 : ∀ c, l.head? = some c → c ≠ '0') :
    natToRevDigits (digitsToNat l) = l.reverse := by
  induction l using List.reverseRecOn with
  | nil => simp [digitsToNat, natToRevDigits_zero]
  | append_singleton l c ih =>
    simp only [List.all_append, List.all_cons, List.all_nil,
      Bool.and_eq_true, Bool.and_true] at hd
    have hc : c.isDigit = true := hd.2
    have hdc := digitVal_lt_ten hc
    rw [digitsToNat_concat]
    rcases List.eq_nil_or_concat l with hl | ⟨l', c', hl⟩
    · subst hl
      have hcz : c ≠ '0' := h0 c (by simp)
      have hdv : 0 < digitVal c := by
        rcases Nat.eq_zero_or_pos (digitVal c) with hz | hp
        · exact absurd ((digitVal_eq_zero_iff hc).mp hz) hcz
        · exact hp
      simp only [digitsToNat, List.foldl_nil]
      rw [natToRevDigits_pos (by omega)]
      rw [Nat.mul_zero, Nat.zero_add, Nat.mod_eq_of_lt hdc,
        Nat.div_eq_of_lt hdc, digitChar_digitVal hc]
      simp [natToRevDigits_zero]
    · have hlne : l ≠ [] := by subst hl; simp
      have h0' : ∀ d, l.head? = some d → d ≠ '0' := by
        intro d hdhead
        apply h0
        rw [List.head?_append_of_ne_nil _ hlne]
        exact hdhead
      have hlpos : 0 < digitsToNat l := by
        apply digitsToNat_pos_of_head_ne_zero hd.1 hlne
        intro hcon
        exact h0' '0' hcon rfl
      have hvpos : 0 < 10 * digitsToNat l + digitVal c := by omega
      rw [natToRevDigits_pos hvpos]
      have hmod : (10 * digitsToNat l + digitVal c) % 10 = digitVal c := by
        omega
      have hdiv : (10 * digitsToNat l + digitVal c) / 10 = digitsToNat l := by
        omega
      rw [hmod, hdiv, digitChar_digitVal hc, ih hd.1 h0']
      simp

/-- A nonempty all-digit string with no leading zero (or the single digit
`"0"`) is recovered exactly from its own numeric value. -/
theorem natToDigits_digitsToNat {l : List Char}
    (hd : l.all Char.isDigit = true) (hne : l ≠ [])
    (h0 : l = ['0'] ∨ l.head? ≠ some '0') :
    natToDigits (digitsToNat l) = l := by
  rcases h0 with h0 | h0
  · subst h0; simp [digitsToNat, digitVal, natToDigits]
  · have hpos : 0 < digitsToNat l := digitsToNat_pos_of_head_ne_zero hd hne h0
    unfold natToDigits
    simp only [Nat.pos_iff_ne_zero.mp hpos, if_false]
    rw [natToRevDigits_digitsToNat hd
      (fun c hc hcz => h0 (hcz ▸ hc)), List.reverse_reverse]

theorem natToPadded_digits (e a : ℕ) :
    (natToPadded e a).all Char.isDigit = true ∧
      (natToPadded e a).length = e ∧
      digitsToNat (natToPadded e a) = a % 10 ^ e := by
  induction e generalizing a with
  | zero => simp [natToPadded, digitsToNat, Nat.mod_one]
  | succ e ih =>
    obtain ⟨ihd, ihl, ihv⟩ := ih (a / 10)
    refine ⟨?_, ?_, ?_⟩
    · simp only [natToPadded, List.all_append, List.all_cons, List.all_nil,
        Bool.and_eq_true, Bool.and_true]
      exact ⟨ihd, isDigit_digitChar (Nat.mod_lt a (by norm_num))⟩
    · simp [natToPadded, ihl]
    · rw [natToPadded, digitsToNat_concat, ihv,
        digitVal_digitChar (Nat.mod_lt a (by norm_num))]
      have hmm : a % 10 ^ (e + 1) = a % 10 + 10 * (a / 10 % 10 ^ e) := by
        rw [pow_succ, mul_comm, Nat.mod_mul]
      omega

/-- A digit string of length `e` is recovered exactly by zero-padded
rendering of its own value. -/
theorem natToPadded_digitsToNat {l : List Char}
    (hd : l.all Char.isDigit = true) :
    natToPadded l.length (digitsToNat l) = l := by
  induction l using List.reverseRecOn with
  | nil => simp [natToPadded]
  | append_singleton l c ih =>
    simp only [List.all_append, List.all_cons, List.all_nil,
      Bool.and_eq_true, Bool.and_true] at hd
    have hdc := digitVal_lt_ten hd.2
    have hlen : (l ++ [c]).length = l.length + 1 := by simp
    rw [hlen, digitsToNat_concat, natToPadded]
    have hdiv : (10 * digitsToNat l + digitVal c) / 10 = digitsToNat l := by
      omega
    have hmod : (10 * digitsToNat l + digitVal c) % 10 = digitVal c := by
      omega
    rw [hdiv, hmod, digitChar_digitVal hd.2, ih hd.1]

/-! ## Lemmas about the parser -/

/-! ## Lemmas about the parser -/

theorem spanDigits_split (cs : List Char) :
    cs = (spanDigits cs).1 ++ (spanDigits cs).2 ∧
      (spanDigits cs).1.all Char.isDigit = true ∧
      (∀ c, (spanDigits cs).2.head? = some c → c.isDigit = false) := by
  induction cs with
  | nil => exact ⟨rfl, rfl, by intro c hc; simp [spanDigits] at hc⟩
  | cons c cs ih =>
    by_cases hc : c.isDigit
    · simp only [spanDigits, hc, if_true]
      obtain ⟨h1, h2, h3⟩ := ih
      exact ⟨by simpa using congrArg (c :: ·) h1, by simp [hc, h2], h3⟩
    · simp only [spanDigits, hc, if_false]
      refine ⟨rfl, by simp, ?_⟩
      intro d hd
      simp at hd
      subst hd
      simpa using hc

theorem spanDigits_append (ds rest : List Char)
    (h1 : ds.all Char.isDigit = true)
    (h2 : ∀ c, rest.head? = some c → c.isDigit = false) :
    spanDigits (ds ++ rest) = (ds, rest) := by
  induction ds with
  | nil =>
    simp only [List.nil_append]
    match rest with
    | [] => rfl
    | c :: rest' =>
      have := h2 c (by simp)
      simp [spanDigits, this]
  | cons c cs ih =>
    simp only [List.all_cons, Bool.and_eq_true] at h1
    simp [spanDigits, h1.1, ih h1.2]

theorem suffix_not_digit {c : Char} (h : c ∈ suffixChars) :
    c.isDigit = false := by
  fin_cases h <;> decide

theorem dot_not_digit : ('.' : Char).isDigit = false := by decide

theorem dot_not_suffix : ('.' : Char) ∉ suffixChars := by decide

theorem neg_not_digit : ('-' : Char).isDigit = false := by decide

/-- The tail of a rendering after the integer digits: the optional
fractional part followed by the optional suffix character. -/
def ProjForm.tailRender (f : ProjForm) : List Char :=
  (match f.fracDigits with | none => [] | some fs => '.' :: fs) ++
    (match f.suffix with | none => [] | some c => [c])

theorem render_eq (f : ProjForm) :
    f.render = (if f.neg then ['-'] else []) ++ f.intDigits ++ f.tailRender := by
  simp [ProjForm.render, ProjForm.tailRender]

theorem parseAfterSign_render (neg : Bool) (ds : List Char)
    (fracs : Option (List Char)) (sfx : Option Char)
    (hne : ds.isEmpty = false) (hdig : ds.all Char.isDigit = true)
    (hfrac : (match fracs with
      | none => true | some fs => fs.all Char.isDigit) = true)
    (hsfx : (match sfx with
      | none => true | some c => decide (c ∈ suffixChars)) = true) :
    parseAfterSign neg
        (ds ++ (ProjForm.tailRender ⟨neg, ds, fracs, sfx⟩)) =
      some ⟨neg, ds, fracs, sfx⟩ := by
  match fracs, sfx with
  | none, none =>
    have hspan : spanDigits ds = (ds, []) := by
      simpa using spanDigits_append ds [] hdig (by simp)
    simp [ProjForm.tailRender, parseAfterSign, hspan, hne]
  | none, some c =>
    have hcs : c ∈ suffixChars := by simpa using hsfx
    have hspan := spanDigits_append ds [c] hdig
      (by intro d hd; simp at hd; exact hd ▸ suffix_not_digit hcs)
    fin_cases hcs <;>
      simp [ProjForm.tailRender, parseAfterSign, hspan, hne, suffixChars]
  | some fs, none =>
    have hfs : fs.all Char.isDigit = true := by simpa using hfrac
    have hspan := spanDigits_append ds ('.' :: fs) hdig
      (by intro d hd; simp at hd; exact hd ▸ dot_not_digit)
    have hspan2 : spanDigits fs = (fs, []) := by
      simpa using spanDigits_append fs [] hfs (by simp)
    simp [ProjForm.tailRender, parseAfterSign, hspan, hspan2, hne]
  | some fs, some c =>
    have hcs : c ∈ suffixChars := by simpa using hsfx
    have hfs : fs.all Char.isDigit = true := by simpa using hfrac
    have hspan := spanDigits_append ds ('.' :: (fs ++ [c])) hdig
      (by intro d hd; simp at hd; exact hd ▸ dot_not_digit)
    have hspan2 := spanDigits_append fs [c] hfs
      (by intro d hd; simp at hd; exact hd ▸ suffix_not_digit hcs)
    have harr : ('.' :: fs) ++ [c] = '.' :: (fs ++ [c]) := by simp
    fin_cases hcs <;>
      simp [ProjForm.tailRender, harr, parseAfterSign, hspan, hspan2, hne,
        suffixChars]

/-- Parser completeness: every well-formed form is parsed back exactly
from its own rendering. -/
theorem parseProj_render {f : ProjForm} (h : f.WF = true) :
    parseProj (String.mk f.render) = some f := by
  obtain ⟨neg, ds, fracs, sfx⟩ := f
  simp only [ProjForm.WF, Bool.and_eq_true, Bool.not_eq_true',
    List.isEmpty_eq_false] at h
  obtain ⟨⟨⟨hne, hdig⟩, hfrac⟩, hsfx⟩ := h
  have hne' : ds.isEmpty = false := by
    simp [List.isEmpty_iff]; exact hne
  have hmain := parseAfterSign_render neg ds fracs sfx hne' hdig hfrac hsfx
  cases neg with
  | true =>
    have hr : ProjForm.render ⟨true, ds, fracs, sfx⟩ =
        '-' :: (ds ++ ProjForm.tailRender ⟨true, ds, fracs, sfx⟩) := by
      rw [render_eq]; simp
    rw [show (String.mk (ProjForm.render ⟨true, ds, fracs, sfx⟩)) =
      String.mk ('-' :: (ds ++ ProjForm.tailRender ⟨true, ds, fracs, sfx⟩))
      from congrArg String.mk hr]
    simpa [parseProj, parseProjChars] using hmain
  | false =>
    cases ds with
    | nil => exact absurd rfl hne
    | cons d ds' =>
      have hd : d.isDigit = true := by
        simp only [List.all_cons, Bool.and_eq_true] at hdig
        exact hdig.1
      have hdm : ¬(d = '-') := fun hc => by
        rw [hc] at hd; exact absurd hd (by decide)
      have hr : ProjForm.render ⟨false, d :: ds', fracs, sfx⟩ =
          d :: (ds' ++ ProjForm.tailRender ⟨false, d :: ds', fracs, sfx⟩) := by
        rw [render_eq]; simp
      rw [show (String.mk (ProjForm.render ⟨false, d :: ds', fracs, sfx⟩)) =
        String.mk (d :: (ds' ++ ProjForm.tailRender ⟨false, d :: ds', fracs, sfx⟩))
        from congrArg String.mk hr]
      simp only [parseProj, parseProjChars]
      rw [if_neg hdm]
      simpa using hmain

theorem parseAfterSign_sound {neg : Bool} {cs : List Char} {f : ProjForm}
    (h : parseAfterSign neg cs = some f) :
    f.WF = true ∧ cs = f.intDigits ++ f.tailRender ∧ f.neg = neg := by
  obtain ⟨hcs, hdig, hhead⟩ := spanDigits_split cs
  simp only [parseAfterSign] at h
  split at h
  · cases h
  next hne =>
    have hne' : ¬(spanDigits cs).1 = [] := by
      simpa [List.isEmpty_iff] using hne
    split at h
    next hb =>
      injection h with h
      subst h
      refine ⟨?_, ?_, rfl⟩
      · simp [ProjForm.WF, List.isEmpty_iff, hne', hdig]
      · simpa [ProjForm.tailRender, hb] using hcs
    next rest hb =>
      obtain ⟨hrest, hqdig, hqhead⟩ := spanDigits_split rest
      split at h
      next hq =>
        injection h with h
        subst h
        refine ⟨?_, ?_, rfl⟩
        · simp [ProjForm.WF, List.isEmpty_iff, hne', hdig, hqdig]
        · simp only [ProjForm.tailRender]
          conv_lhs => rw [hcs, hb, hrest, hq]
          simp
      next c hq =>
        split at h
        next hmem =>
          injection h with h
          subst h
          refine ⟨?_, ?_, rfl⟩
          · simp [ProjForm.WF, List.isEmpty_iff, hne', hdig, hqdig, hmem]
          · simp only [ProjForm.tailRender]
            conv_lhs => rw [hcs, hb, hrest, hq]
            simp
        · cases h
      next => cases h
    next c hb0 hb =>
      split at h
      next hmem =>
        injection h with h
        subst h
        refine ⟨?_, ?_, rfl⟩
        · simp [ProjForm.WF, List.isEmpty_iff, hne', hdig, hmem]
        · simpa [ProjForm.tailRender, hb] using hcs
      · cases h
    next => cases h

theorem parseProjChars_sound {l : List Char} {f : ProjForm}
    (h : parseProjChars l = some f) : f.WF = true ∧ l = f.render := by
  match l with
  | [] => cases h
  | c :: rest =>
    simp only [parseProjChars] at h
    by_cases hc : c = '-'
    · rw [if_pos hc] at h
      obtain ⟨hwf, heq, hneg⟩ := parseAfterSign_sound h
      refine ⟨hwf, ?_⟩
      rw [render_eq, hneg]
      simp [hc, heq]
    · rw [if_neg hc] at h
      obtain ⟨hwf, heq, hneg⟩ := parseAfterSign_sound h
      refine ⟨hwf, ?_⟩
      rw [render_eq, hneg]
      simp [heq]

/-- Parser soundness: a successful parse yields a well-formed form whose
rendering is exactly the input. -/
theorem parseProj_sound {s : String} {f : ProjForm}
    (h : parseProj s = some f) : f.WF = true ∧ s.data = f.render :=
  parseProjChars_sound h

/-! ## Characterizing the decoder on a successful match -/

theorem WF_suffix {f : ProjForm} (h : f.WF = true) :
    f.suffix = none ∨ ∃ c, f.suffix = some c ∧ c ∈ suffixChars := by
  simp only [ProjForm.WF, Bool.and_eq_true] at h
  obtain ⟨_, hsfx⟩ := h
  match hs : f.suffix with
  | none => exact Or.inl rfl
  | some c =>
    rw [hs] at hsfx
    exact Or.inr ⟨c, rfl, by simpa using hsfx⟩

/-- The invalid-suffix branch test of the decoder is false on every
well-formed form. -/
theorem invalid_suffix_branch_false {f : ProjForm} (h : f.WF = true)
    (hr : ¬(f.suffix = some 'r' ∨ f.suffix = some 'R')) :
    ¬(f.suffix ≠ none ∧
      ¬(f.suffix = some 'd' ∨ f.suffix = some 'D' ∨ f.suffix = some '°')) := by
  rcases WF_suffix h with hn | ⟨c, hc, hmem⟩
  · simp [hn]
  · rw [hc]
    rw [hc] at hr
    fin_cases hmem
    · exact absurd (Or.inl rfl) hr
    · exact absurd (Or.inr rfl) hr
    · simp
    · simp
    · simp

/-- Full characterization of the decoder on a string that matches the
grammar. -/
theorem decode_eq {s : String} {f : ProjForm} (hp : parseProj s = some f)
    (ctx : Option String) :
    convert_proj_angular_data_to_cf s ctx =
      some ⟨1,
        if (f.suffix = some 'r' ∨ f.suffix = some 'R') ∧ truthy ctx = true
        then unitsConformRadiansToDegrees f.numericValue
        else f.numericValue,
        some (if (f.suffix = some 'r' ∨ f.suffix = some 'R') ∧
            ¬truthy ctx = true then "radians"
          else if ctx = some "lat" then "degrees_north"
          else if ctx = some "lon" then "degrees_east" else "degrees")⟩ := by
  have hwf := (parseProj_sound hp).1
  simp only [convert_proj_angular_data_to_cf, hp]
  by_cases hr : f.suffix = some 'r' ∨ f.suffix = some 'R'
  · by_cases ht : truthy ctx = true
    · simp [hr, ht]
    · simp [hr, ht]
  · have hbranch := invalid_suffix_branch_false hwf hr
    simp only [if_neg hr, if_neg hbranch]
    simp [hr]

/-! ## Values of decoded magnitudes -/

theorem numericValue_val (f : ProjForm) :
    (f.numericValue).val = (f.ratVal : ℝ) := by
  obtain ⟨neg, ds, fracs, sfx⟩ := f
  rcases neg with _ | _ <;> rcases fracs with _ | fs
  · simp [ProjForm.numericValue, ProjForm.intValue, ProjForm.ratVal, Mag.val]
  · simp only [ProjForm.numericValue, ProjForm.mantissa, ProjForm.ratVal,
      Mag.val, digitsToNat_append]
    have h10 : ((10 : ℝ) ^ fs.length) ≠ 0 := by positivity
    push_cast
    field_simp
  · simp [ProjForm.numericValue, ProjForm.intValue, ProjForm.ratVal, Mag.val]
  · simp only [ProjForm.numericValue, ProjForm.mantissa, ProjForm.ratVal,
      Mag.val, digitsToNat_append]
    have h10 : ((10 : ℝ) ^ fs.length) ≠ 0 := by positivity
    push_cast
    field_simp

theorem conform_numericValue_val (f : ProjForm) :
    (unitsConformRadiansToDegrees f.numericValue).val =
      (f.ratVal : ℝ) * (180 / Real.pi) := by
  have h := numericValue_val f
  match hn : f.numericValue with
  | .mint n =>
    rw [hn] at h
    simp only [unitsConformRadiansToDegrees, Mag.val]
    simp only [Mag.val] at h
    rw [← h]
    norm_num
  | .mfloat m e =>
    rw [hn] at h
    simp only [unitsConformRadiansToDegrees, Mag.val]
    simp only [Mag.val] at h
    rw [← h]
  | .mconv m e =>
    exact absurd hn (by
      obtain ⟨neg, ds, fracs, sfx⟩ := f
      match fracs with
      | none => simp [ProjForm.numericValue]
      | some fs => simp [ProjForm.numericValue])

theorem conform_not_int (f : ProjForm) :
    (unitsConformRadiansToDegrees f.numericValue).isIntTyped = false := by
  obtain ⟨neg, ds, fracs, sfx⟩ := f
  match fracs with
  | none => simp [ProjForm.numericValue, unitsConformRadiansToDegrees,
      Mag.isIntTyped]
  | some fs => simp [ProjForm.numericValue, unitsConformRadiansToDegrees,
      Mag.isIntTyped]

/-! ## The grammar as a declarative predicate -/

/-- A string fully matches the grammar `-?\d+(\.\d*)?[rRdD°]?` exactly
when it is the rendering of some well-formed group decomposition. -/
def GrammarMatch (s : String) : Prop :=
  ∃ f : ProjForm, f.WF = true ∧ s.data = f.render

theorem decode_isSome_of_parse {s : String} {f : ProjForm}
    (hp : parseProj s = some f) (ctx : Option String) :
    convert_proj_angular_data_to_cf s ctx ≠ none := by
  rw [decode_eq hp ctx]
  simp

theorem decode_none_of_parse_fail {s : String} (hp : parseProj s = none)
    (ctx : Option String) :
    convert_proj_angular_data_to_cf s ctx = none := by
  simp [convert_proj_angular_data_to_cf, hp]

theorem parseProj_of_grammar {s : String} {f : ProjForm}
    (hwf : f.WF = true) (hdata : s.data = f.render) :
    parseProj s = some f := by
  rw [parseProj, hdata]
  exact parseProj_render hwf

/-! ## Claim C4 -/

/-- C4: decoding raises a `ValueError` exactly when the input string
does not fully match the grammar `-?\d+(\.\d*)?[rRdD°]?`; in particular
`""`, `"90x"`, `"90.5.5"`, `"  90"` and `"90Q"` all fail, and no
partially parsed result is ever returned. -/
theorem c4_decode_error_iff_no_grammar_match :
    (∀ (s : String) (ctx : Option String),
      convert_proj_angular_data_to_cf s ctx = none ↔ ¬GrammarMatch s) ∧
    convert_proj_angular_data_to_cf "" none = none ∧
    convert_proj_angular_data_to_cf "90x" none = none ∧
    convert_proj_angular_data_to_cf "90.5.5" none = none ∧
    convert_proj_angular_data_to_cf "  90" none = none ∧
    convert_proj_angular_data_to_cf "90Q" none = none := by
  refine ⟨?_, rfl, rfl, rfl, rfl, rfl⟩
  intro s ctx
  constructor
  · intro hnone hgm
    obtain ⟨f, hwf, hdata⟩ := hgm
    exact decode_isSome_of_parse (parseProj_of_grammar hwf hdata) ctx hnone
  · intro hgm
    match hp : parseProj s with
    | none => exact decode_none_of_parse_fail hp ctx
    | some f =>
      obtain ⟨hwf, hdata⟩ := parseProj_sound hp
      exact absurd ⟨f, hwf, hdata⟩ hgm

/-! ## Claim C9 -/

/-- C9: for every input that fully matches the grammar, decoding never
raises — the invalid-suffix branch is unreachable, because a full match
only admits an empty suffix or one of `r`, `R`, `d`, `D`, `°`. -/
theorem c9_valid_input_never_raises :
    ∀ (s : String) (f : ProjForm) (ctx : Option String),
      parseProj s = some f →
      convert_proj_angular_data_to_cf s ctx ≠ none ∧
      (f.suffix = none ∨ f.suffix = some 'r' ∨ f.suffix = some 'R' ∨
        f.suffix = some 'd' ∨ f.suffix = some 'D' ∨ f.suffix = some '°') := by
  intro s f ctx hp
  refine ⟨decode_isSome_of_parse hp ctx, ?_⟩
  rcases WF_suffix (parseProj_sound hp).1 with hn | ⟨c, hc, hmem⟩
  · exact Or.inl hn
  · fin_cases hmem <;> simp [hc]

/-- Witness for C9 at the concrete matching input `"45r"`. -/
theorem c9_valid_input_never_raises_witness :
    parseProj "45r" = some ⟨false, ['4', '5'], none, some 'r'⟩ ∧
      convert_proj_angular_data_to_cf "45r" none ≠ none :=
  ⟨by decide,
    (c9_valid_input_never_raises "45r" ⟨false, ['4', '5'], none, some 'r'⟩
      none (by decide)).1⟩

/-! ## Claim C1 -/

/-- C1: decoding a radians-suffixed (`r`/`R`) value with latitude
(`"lat"`) or longitude (`"lon"`) context converts the magnitude from
radians to degrees by the exact factor `180 / π` and tags the result
`"degrees_north"` resp. `"degrees_east"`; decoding it with no context
leaves the magnitude numerically (and structurally) unchanged and tags
the result `"radians"`. -/
theorem c1_radians_decoding :
    ∀ f : ProjForm, f.WF = true →
      (f.suffix = some 'r' ∨ f.suffix = some 'R') →
      (∃ d, convert_proj_angular_data_to_cf (String.mk f.render)
          (some "lat") = some d ∧ d.units = some "degrees_north" ∧
          d.mag.val = (f.ratVal : ℝ) * (180 / Real.pi)) ∧
      (∃ d, convert_proj_angular_data_to_cf (String.mk f.render)
          (some "lon") = some d ∧ d.units = some "degrees_east" ∧
          d.mag.val = (f.ratVal : ℝ) * (180 / Real.pi)) ∧
      (∃ d, convert_proj_angular_data_to_cf (String.mk f.render)
          none = some d ∧ d.units = some "radians" ∧
          d.mag = f.numericValue ∧ d.mag.val = (f.ratVal : ℝ)) := by
  intro f hwf hr
  have hp := parseProj_render hwf
  have htlat : truthy (some "lat") = true := by decide
  have htlon : truthy (some "lon") = true := by decide
  have htnone : truthy (none : Option String) = false := by decide
  refine ⟨⟨_, decode_eq hp (some "lat"), ?_, ?_⟩,
    ⟨_, decode_eq hp (some "lon"), ?_, ?_⟩,
    ⟨_, decode_eq hp none, ?_, ?_, ?_⟩⟩
  · simp [htlat]
  · simp [hr, htlat, conform_numericValue_val]
  · simp [htlon]
  · simp [hr, htlon, conform_numericValue_val]
  · simp [hr, htnone]
  · simp [hr, htnone]
  · simp [hr, htnone, numericValue_val]

/-- Witness for C1 at the concrete form rendering `"1.5R"`. -/
theorem c1_radians_decoding_witness :
    (ProjForm.WF ⟨false, ['1'], some ['5'], some 'R'⟩ = true) ∧
      ((ProjForm.suffix ⟨false, ['1'], some ['5'], some 'R'⟩ = some 'r') ∨
        (ProjForm.suffix ⟨false, ['1'], some ['5'], some 'R'⟩ = some 'R')) ∧
      (∃ d, convert_proj_angular_data_to_cf
          (String.mk (ProjForm.render ⟨false, ['1'], some ['5'], some 'R'⟩))
          none = some d ∧ d.units = some "radians" ∧
          d.mag = ProjForm.numericValue ⟨false, ['1'], some ['5'], some 'R'⟩ ∧
          d.mag.val = ((ProjForm.ratVal ⟨false, ['1'], some ['5'], some 'R'⟩ : ℚ) : ℝ)) :=
  ⟨by decide, by decide,
    (c1_radians_decoding ⟨false, ['1'], some ['5'], some 'R'⟩
      (by decide) (by decide)).2.2⟩

/-! ## Claim C2 -/

/-- C2: a decimal numeral with suffix absent, `d`, `D` or `°` decodes
with no numeric transformation; the unit is `"degrees"` with no context,
`"degrees_north"` with latitude context and `"degrees_east"` with
longitude context, and the magnitude is exactly the numeral's value. -/
theorem c2_degrees_decoding :
    ∀ f : ProjForm, f.WF = true →
      (f.suffix = none ∨ f.suffix = some 'd' ∨ f.suffix = some 'D' ∨
        f.suffix = some '°') →
      convert_proj_angular_data_to_cf (String.mk f.render) none =
          some ⟨1, f.numericValue, some "degrees"⟩ ∧
      convert_proj_angular_data_to_cf (String.mk f.render) (some "lat") =
          some ⟨1, f.numericValue, some "degrees_north"⟩ ∧
      convert_proj_angular_data_to_cf (String.mk f.render) (some "lon") =
          some ⟨1, f.numericValue, some "degrees_east"⟩ ∧
      (f.numericValue).val = (f.ratVal : ℝ) := by
  intro f hwf hs
  have hp := parseProj_render hwf
  have hnr : ¬(f.suffix = some 'r' ∨ f.suffix = some 'R') := by
    rcases hs with h | h | h | h <;> simp [h]
  refine ⟨?_, ?_, ?_, numericValue_val f⟩ <;> rw [decode_eq hp] <;>
    simp [hnr]

/-- Witness for C2 at the concrete form rendering `"45"`. -/
theorem c2_degrees_decoding_witness :
    (ProjForm.WF ⟨false, ['4', '5'], none, none⟩ = true) ∧
      (ProjForm.suffix ⟨false, ['4', '5'], none, none⟩ = none ∨
        ProjForm.suffix ⟨false, ['4', '5'], none, none⟩ = some 'd' ∨
        ProjForm.suffix ⟨false, ['4', '5'], none, none⟩ = some 'D' ∨
        ProjForm.suffix ⟨false, ['4', '5'], none, none⟩ = some '°') ∧
      convert_proj_angular_data_to_cf
          (String.mk (ProjForm.render ⟨false, ['4', '5'], none, none⟩))
          (some "lat") =
        some ⟨1, ProjForm.numericValue ⟨false, ['4', '5'], none, none⟩,
          some "degrees_north"⟩ :=
  ⟨by decide, by decide,
    (c2_degrees_decoding ⟨false, ['4', '5'], none, none⟩
      (by decide) (by decide)).2.1⟩

/-! ## Claim C10 -/

/-- C10: a non-empty context other than `"lat"`/`"lon"` (for example
`"latitude"`) is truthy, so a radians-suffixed value is converted to
degrees, yet the unit tag comparison against `"lat"`/`"lon"` fails, so
the result is tagged `"degrees"`: such contexts convert like
latitude/longitude but are tagged like the unspecified context. -/
theorem c10_truthy_context_converts_tags_degrees :
    ∀ (c : String) (f : ProjForm), c ≠ "" → c ≠ "lat" → c ≠ "lon" →
      f.WF = true → (f.suffix = some 'r' ∨ f.suffix = some 'R') →
      ∃ d, convert_proj_angular_data_to_cf (String.mk f.render)
          (some c) = some d ∧ d.units = some "degrees" ∧
        d.mag.val = (f.ratVal : ℝ) * (180 / Real.pi) ∧
        d.mag.isIntTyped = false := by
  intro c f hc0 hclat hclon hwf hr
  have hp := parseProj_render hwf
  have ht : truthy (some c) = true := by
    have : c.isEmpty = false := by
      rcases hb : c.isEmpty with _ | _
      · rfl
      · exact absurd ((String.isEmpty_iff c).mp hb) hc0
    simp [truthy, this]
  refine ⟨_, decode_eq hp (some c), ?_, ?_, ?_⟩
  · simp [ht, hclat, hclon]
  · simp [hr, ht, conform_numericValue_val]
  · simp [hr, ht, conform_not_int]

/-- Witness for C10 at context `"latitude"` and input `"1r"`. -/
theorem c10_truthy_context_witness :
    ("latitude" ≠ "") ∧ ("latitude" ≠ "lat") ∧ ("latitude" ≠ "lon") ∧
      (ProjForm.WF ⟨false, ['1'], none, some 'r'⟩ = true) ∧
      ∃ d, convert_proj_angular_data_to_cf
          (String.mk (ProjForm.render ⟨false, ['1'], none, some 'r'⟩))
          (some "latitude") = some d ∧ d.units = some "degrees" ∧
        d.mag.val = ((ProjForm.ratVal ⟨false, ['1'], none, some 'r'⟩ : ℚ) : ℝ) *
          (180 / Real.pi) ∧
        d.mag.isIntTyped = false :=
  ⟨by decide, by decide, by decide, by decide,
    c10_truthy_context_converts_tags_degrees "latitude"
      ⟨false, ['1'], none, some 'r'⟩ (by decide) (by decide) (by decide)
      (by decide) (by decide)⟩

/-! ## Lemmas about rendering numbers -/

theorem string_ext {s t : String} (h : s.data = t.data) : s = t := by
  cases s; cases t; cases h; rfl

theorem digitsToNat_mod_ten {fs : List Char} {c : Char}
    (hd : fs.all Char.isDigit = true) (hl : fs.getLast? = some c) :
    digitsToNat fs % 10 = digitVal c := by
  rcases List.eq_nil_or_concat fs with h | ⟨l, c', h⟩
  · rw [h] at hl; cases hl
  · subst h
    simp only [List.concat_eq_append] at hd hl ⊢
    rw [List.getLast?_concat] at hl
    injection hl with hl
    subst hl
    simp only [List.all_append, List.all_cons, List.all_nil,
      Bool.and_eq_true, Bool.and_true] at hd
    rw [digitsToNat_concat]
    have := digitVal_lt_ten hd.2
    omega

/-- The decimal rendering of a signed integer given by canonical digits:
`intStr` reproduces the sign and the digit string exactly. -/
theorem intStr_canonical {neg : Bool} {ds : List Char}
    (hd : ds.all Char.isDigit = true) (hne : ds ≠ [])
    (h0 : ds = ['0'] ∨ ds.head? ≠ some '0')
    (hnz : neg = true → digitsToNat ds ≠ 0) :
    intStr ((if neg = true then -1 else 1) * (digitsToNat ds : ℤ)) =
      String.mk ((if neg = true then ['-'] else []) ++ ds) := by
  apply string_ext
  have hrd := natToDigits_digitsToNat hd hne h0
  cases neg with
  | false =>
    have hpos : ¬((1 : ℤ) * (digitsToNat ds : ℤ) < 0) := by omega
    simp only [if_false, Bool.false_eq_true, intStr, one_mul]
    rw [if_neg (by omega)]
    simp only [String.data_append]
    rw [show ((digitsToNat ds : ℤ)).natAbs = digitsToNat ds from rfl, hrd]
  | true =>
    have hpos : 0 < digitsToNat ds := Nat.pos_of_ne_zero (hnz rfl)
    have hneg : (-1 : ℤ) * (digitsToNat ds : ℤ) < 0 := by
      simp only [neg_mul, one_mul, Left.neg_neg_iff]
      exact_mod_cast hpos
    simp only [if_true, intStr]
    rw [if_pos hneg]
    simp only [String.data_append]
    rw [show ((-1 : ℤ) * (digitsToNat ds : ℤ)).natAbs = digitsToNat ds from by
      simp, hrd]

theorem normDec_val (m : ℤ) (e : ℕ) :
    ((normDec m e).1 : ℚ) / 10 ^ (normDec m e).2 = (m : ℚ) / 10 ^ e := by
  induction e generalizing m with
  | zero => simp [normDec]
  | succ e ih =>
    rw [normDec]
    by_cases h : (10 : ℤ) ∣ m
    · rw [if_pos h, ih]
      obtain ⟨k, hk⟩ := h
      subst hk
      rw [Int.mul_ediv_cancel_left _ (by norm_num)]
      push_cast
      rw [pow_succ]
      field_simp
      ring
    · rw [if_neg h]

theorem normDec_not_div {m : ℤ} {e : ℕ} :
    (normDec m e).2 = 0 ∨ ¬((10 : ℤ) ∣ (normDec m e).1) := by
  induction e generalizing m with
  | zero => exact Or.inl rfl
  | succ e ih =>
    rw [normDec]
    by_cases h : (10 : ℤ) ∣ m
    · rw [if_pos h]; exact ih
    · rw [if_neg h]; exact Or.inr h

theorem normDec_of_not_div {m : ℤ} (e : ℕ) (h : ¬(10 : ℤ) ∣ m) :
    normDec m e = (m, e) := by
  cases e with
  | zero => rfl
  | succ e => rw [normDec, if_neg h]

theorem digit_of_getLast {fs : List Char} {c : Char}
    (hf : fs.all Char.isDigit = true) (hl : fs.getLast? = some c) :
    c.isDigit = true := by
  rcases List.eq_nil_or_concat fs with h | ⟨l, c', h⟩
  · rw [h] at hl; cases hl
  · subst h
    simp only [List.concat_eq_append, List.getLast?_concat,
      Option.some.injEq] at hl
    subst hl
    simp only [List.concat_eq_append, List.all_append, List.all_cons,
      List.all_nil, Bool.and_eq_true, Bool.and_true] at hf
    exact hf.2

/-- The decimal rendering of a canonical float: `floatStr` applied to the
parsed mantissa and exponent of a canonically written numeral with a
decimal point reproduces the numeral exactly. -/
theorem floatStr_canonical {neg : Bool} {ds fs : List Char}
    (hd : ds.all Char.isDigit = true) (hne : ds ≠ [])
    (h0 : ds = ['0'] ∨ ds.head? ≠ some '0')
    (hf : fs.all Char.isDigit = true) (hfne : fs ≠ [])
    (hcan : fs = ['0'] ∨ fs.getLast? ≠ some '0')
    (hnz : neg = true → ¬(digitsToNat ds = 0 ∧ digitsToNat fs = 0)) :
    floatStr ((if neg = true then -1 else 1) * (digitsToNat (ds ++ fs) : ℤ))
        fs.length =
      String.mk ((if neg = true then ['-'] else []) ++ ds ++ '.' :: fs) := by
  rcases hcan with hcz | hcl
  · -- fractional part exactly "0": the mantissa ends in a zero digit and
    -- normalisation strips it, landing in the integer-and-".0" branch
    subst hcz
    have hmant : digitsToNat (ds ++ ['0']) = 10 * digitsToNat ds := by
      rw [digitsToNat_concat]
      simp [digitVal]
    have hM : ((if neg = true then (-1 : ℤ) else 1) *
        (digitsToNat (ds ++ ['0']) : ℤ)) =
        10 * ((if neg = true then (-1 : ℤ) else 1) * (digitsToNat ds : ℤ)) := by
      rw [hmant]; push_cast; ring
    rw [hM]
    have hdvd : (10 : ℤ) ∣ 10 * ((if neg = true then (-1 : ℤ) else 1) *
        (digitsToNat ds : ℤ)) := ⟨_, rfl⟩
    have hnorm : normDec (10 * ((if neg = true then (-1 : ℤ) else 1) *
        (digitsToNat ds : ℤ))) (['0'] : List Char).length =
        ((if neg = true then (-1 : ℤ) else 1) * (digitsToNat ds : ℤ), 0) := by
      show normDec _ 1 = _
      rw [normDec, if_pos hdvd, Int.mul_ediv_cancel_left _ (by norm_num)]
      rfl
    rw [floatStr, hnorm]
    have hint := intStr_canonical hd hne h0 (fun hb => by
      intro hzero
      exact (hnz hb) ⟨hzero, by simp [digitsToNat, digitVal]⟩)
    apply string_ext
    simp only [eq_self_iff_true, if_true]
    rw [String.data_append, hint]
  · -- fractional part not ending in '0': the mantissa is not divisible
    -- by ten, so normalisation is the identity
    obtain ⟨c, hlast⟩ : ∃ c, fs.getLast? = some c := by
      rcases List.eq_nil_or_concat fs with h | ⟨l, c', h⟩
      · exact absurd h hfne
      · exact ⟨c', by rw [h, List.concat_eq_append, List.getLast?_concat]⟩
    have hcd : c.isDigit = true := digit_of_getLast hf hlast
    have hcnz : digitVal c ≠ 0 := by
      intro hz
      exact hcl (((digitVal_eq_zero_iff hcd).mp hz) ▸ hlast)
    have hFmod : digitsToNat fs % 10 = digitVal c := digitsToNat_mod_ten hf hlast
    have hk : fs.length ≠ 0 := fun hlen => hfne (List.eq_nil_of_length_eq_zero hlen)
    have hA : digitsToNat (ds ++ fs) =
        digitsToNat ds * 10 ^ fs.length + digitsToNat fs :=
      digitsToNat_append ds fs
    have hF : digitsToNat fs < 10 ^ fs.length := digitsToNat_lt fs hf
    have hAmod : digitsToNat (ds ++ fs) % 10 ≠ 0 := by
      obtain ⟨k, hk10⟩ : ∃ k, fs.length = k + 1 := ⟨fs.length - 1, by omega⟩
      have h2 : digitsToNat (ds ++ fs) =
          10 * (digitsToNat ds * 10 ^ k) + digitsToNat fs := by
        rw [hA, hk10, pow_succ]; ring
      have := digitVal_lt_ten hcd
      omega
    have hndvd : ¬(10 : ℤ) ∣ ((if neg = true then (-1 : ℤ) else 1) *
        (digitsToNat (ds ++ fs) : ℤ)) := by
      intro hdvd
      have h1 : (10 : ℤ) ∣ (digitsToNat (ds ++ fs) : ℤ) := by
        rcases neg with _ | _
        · simpa using hdvd
        · simp only [if_true] at hdvd
          rw [show ((-1 : ℤ) * (digitsToNat (ds ++ fs) : ℤ)) =
            -((digitsToNat (ds ++ fs) : ℤ)) from by ring] at hdvd
          exact (dvd_neg).mp hdvd
      have h2 : (10 : ℕ) ∣ digitsToNat (ds ++ fs) := by exact_mod_cast h1
      omega
    rw [floatStr, normDec_of_not_div _ hndvd]
    simp only [if_neg hk]
    have hApos : 0 < digitsToNat (ds ++ fs) := by omega
    have habs : ((if neg = true then (-1 : ℤ) else 1) *
        (digitsToNat (ds ++ fs) : ℤ)).natAbs = digitsToNat (ds ++ fs) := by
      rcases neg with _ | _ <;> simp
    have hdiv : digitsToNat (ds ++ fs) / 10 ^ fs.length = digitsToNat ds := by
      rw [hA, mul_comm, Nat.mul_add_div (by positivity), Nat.div_eq_of_lt hF,
        Nat.add_zero]
    have hmod : digitsToNat (ds ++ fs) % 10 ^ fs.length = digitsToNat fs := by
      rw [hA, mul_comm, Nat.mul_add_mod, Nat.mod_eq_of_lt hF]
    have hsign : ((if neg = true then (-1 : ℤ) else 1) *
        (digitsToNat (ds ++ fs) : ℤ) < 0) ↔ neg = true := by
      rcases neg with _ | _
      all_goals simp
      all_goals omega
    apply string_ext
    simp only [String.data_append, habs, hdiv, hmod]
    rw [natToDigits_digitsToNat hd hne h0, natToPadded_digitsToNat hf]
    by_cases hb : neg = true
    · rw [if_pos (hsign.mpr hb), hb]
      simp
    · rw [if_neg (fun hlt => hb (hsign.mp hlt))]
      simp only [Bool.not_eq_true] at hb
      rw [hb]
      simp

/-! ## Characterizing the encoder -/

theorem encode_degrees {mag : Mag} {u : String}
    (hu : u ∈ valid_degrees_units) :
    convert_cf_angular_data_to_proj ⟨1, mag, some u⟩ = mag.render := by
  simp [convert_cf_angular_data_to_proj, hu]

theorem radians_not_degrees_unit : ("radians" : String) ∉ valid_degrees_units := by
  decide

theorem encode_radians (mag : Mag) :
    convert_cf_angular_data_to_proj ⟨1, mag, some "radians"⟩ =
      mag.render.map (fun s => s ++ "R") := by
  simp [convert_cf_angular_data_to_proj, radians_not_degrees_unit]

/-! ## Claim C3 -/

/-- The canonically rendered numeral texts of claim C3: integer digits
with no redundant leading zero, a fractional part (when present) that is
nonempty and has no redundant trailing zero, no negative zero, and the
canonical suffixes (none for degrees, `R` for radians). -/
def ProjForm.Canonical (f : ProjForm) : Prop :=
  f.WF = true ∧
  (f.suffix = none ∨ f.suffix = some 'R') ∧
  (f.intDigits = ['0'] ∨ f.intDigits.head? ≠ some '0') ∧
  (match f.fracDigits with
   | none => True
   | some fs => fs ≠ [] ∧ (fs = ['0'] ∨ fs.getLast? ≠ some '0')) ∧
  ¬(f.neg = true ∧ f.ratVal = 0)

/-- On a canonical form, rendering the decoded magnitude reproduces the
numeral part of the original text exactly. -/
theorem numericValue_render_canonical {f : ProjForm} (hc : f.Canonical) :
    (f.numericValue).render = some (String.mk
      ((if f.neg = true then ['-'] else []) ++ f.intDigits ++
        (match f.fracDigits with | none => [] | some fs => '.' :: fs))) := by
  obtain ⟨hwf, hsfx, h0, hfrac, hnz⟩ := hc
  have hwf' := hwf
  simp only [ProjForm.WF, Bool.and_eq_true, Bool.not_eq_true',
    List.isEmpty_eq_false] at hwf'
  obtain ⟨⟨⟨hne, hdig⟩, hfdig⟩, -⟩ := hwf'
  match hfs : f.fracDigits with
  | none =>
    have hnz' : f.neg = true → digitsToNat f.intDigits ≠ 0 := by
      intro hb hz
      exact hnz ⟨hb, by simp [ProjForm.ratVal, hfs, hz]⟩
    simp only [ProjForm.numericValue, hfs, Mag.render, ProjForm.intValue]
    rw [intStr_canonical hdig hne h0 hnz']
    simp
  | some fs =>
    rw [hfs] at hfrac hfdig
    obtain ⟨hfne, hcan⟩ := hfrac
    have hnz' : f.neg = true →
        ¬(digitsToNat f.intDigits = 0 ∧ digitsToNat fs = 0) := by
      intro hb ⟨hz1, hz2⟩
      apply hnz
      refine ⟨hb, ?_⟩
      simp [ProjForm.ratVal, hfs, hz1, hz2]
    simp only [ProjForm.numericValue, hfs, Mag.render, ProjForm.mantissa]
    rw [floatStr_canonical hdig hne h0 hfdig hfne hcan hnz']

/-- Counterexample to C3 as stated: `"00"` is a decimal numeral with no
suffix (a canonical degrees text in the claim's sense), yet decoding it
and re-encoding yields `"0"`, not `"00"`. -/
theorem c3_round_trip_counterexample :
    (convert_proj_angular_data_to_cf "00" none).bind
        convert_cf_angular_data_to_proj = some "0" ∧
      ("0" : String) ≠ "00" := by
  constructor
  · rfl
  · decide

theorem intStr_data (n : ℤ) :
    (intStr n).data = (if n < 0 then ['-'] else []) ++ natToDigits n.natAbs := by
  by_cases h : n < 0 <;> simp [intStr, h, String.data_append]

theorem sign_mul_natAbs (n : ℤ) :
    ((if decide (n < 0) = true then (-1 : ℚ) else 1) * (n.natAbs : ℚ)) = n := by
  by_cases h : n < 0
  · rw [if_pos (by simpa using h)]
    have h1 : (n.natAbs : ℤ) = -n := by omega
    have h2 : (n.natAbs : ℚ) = -(n : ℚ) := by
      have := congrArg (fun z : ℤ => (z : ℚ)) h1
      push_cast at this
      rw [Int.cast_natAbs]
      push_cast
      exact this
    rw [h2]; ring
  · rw [if_neg (by simpa using h)]
    have h1 : (n.natAbs : ℤ) = n := by omega
    have h2 : (n.natAbs : ℚ) = (n : ℚ) := by
      have := congrArg (fun z : ℤ => (z : ℚ)) h1
      push_cast at this
      rw [Int.cast_natAbs]
      push_cast
      exact this
    rw [h2]; ring

theorem WF_int_form (n : ℤ) {sfx : Option Char}
    (hs : sfx = none ∨ ∃ c, sfx = some c ∧ c ∈ suffixChars) :
    ProjForm.WF ⟨decide (n < 0), natToDigits n.natAbs, none, sfx⟩ = true := by
  simp only [ProjForm.WF, Bool.and_eq_true, Bool.not_eq_true',
    List.isEmpty_eq_false]
  refine ⟨⟨⟨natToDigits_ne_nil _, natToDigits_all_digits _⟩, trivial⟩, ?_⟩
  rcases hs with h | ⟨c, hc, hmem⟩
  · simp [h]
  · simp [hc, hmem]

theorem ratVal_int_form (n : ℤ) (sfx : Option Char) :
    ProjForm.ratVal ⟨decide (n < 0), natToDigits n.natAbs, none, sfx⟩ =
      (n : ℚ) := by
  simp only [ProjForm.ratVal, digitsToNat_natToDigits, add_zero]
  exact sign_mul_natAbs n

/-- Decomposition of a rendered float: `floatStr m e` is a canonical
numeral text with a decimal point whose value is exactly `m / 10^e`. -/
theorem floatStr_form (m : ℤ) (e : ℕ) :
    ∃ (b : Bool) (ds fls : List Char),
      (floatStr m e).data = (if b = true then ['-'] else []) ++ ds ++
        '.' :: fls ∧
      ds.all Char.isDigit = true ∧ ds ≠ [] ∧
      fls.all Char.isDigit = true ∧
      ((if b = true then (-1 : ℚ) else 1) *
        ((digitsToNat ds : ℚ) + (digitsToNat fls : ℚ) / 10 ^ fls.length)) =
        (m : ℚ) / 10 ^ e := by
  have hval := normDec_val m e
  rcases he : (normDec m e).2 with _ | e'
  · refine ⟨decide ((normDec m e).1 < 0), natToDigits (normDec m e).1.natAbs,
      ['0'], ?_, natToDigits_all_digits _, natToDigits_ne_nil _, by decide, ?_⟩
    · rw [floatStr, he]
      simp only [eq_self_iff_true, if_true]
      rw [String.data_append, intStr_data]
      by_cases h : (normDec m e).1 < 0 <;> simp [h]
    · rw [show digitsToNat ['0'] = 0 from by decide]
      rw [digitsToNat_natToDigits]
      push_cast
      rw [show ((0 : ℚ) / 10 ^ (['0'] : List Char).length) = 0 from by norm_num,
        add_zero, sign_mul_natAbs]
      rw [← hval, he]
      norm_num
  · set m' := (normDec m e).1 with hm'
    set a := m'.natAbs with ha
    refine ⟨decide (m' < 0), natToDigits (a / 10 ^ (e' + 1)),
      natToPadded (e' + 1) (a % 10 ^ (e' + 1)), ?_,
      natToDigits_all_digits _, natToDigits_ne_nil _,
      (natToPadded_digits (e' + 1) (a % 10 ^ (e' + 1))).1, ?_⟩
    · rw [floatStr, he]
      simp only [Nat.succ_ne_zero, if_false]
      by_cases h : m' < 0 <;>
        simp [h, String.data_append, ← hm', ← ha]
    · obtain ⟨-, hlen, hvalp⟩ := natToPadded_digits (e' + 1) (a % 10 ^ (e' + 1))
      rw [hlen, hvalp, digitsToNat_natToDigits,
        Nat.mod_mod_of_dvd _ dvd_rfl, ← hval, he]
      have hde : a = 10 ^ (e' + 1) * (a / 10 ^ (e' + 1)) + a % 10 ^ (e' + 1) :=
        (Nat.div_add_mod a (10 ^ (e' + 1))).symm
      have hsgn := sign_mul_natAbs m'
      rw [← ha] at hsgn
      have hten : ((10 : ℚ) ^ (e' + 1)) ≠ 0 := by positivity
      calc (if decide (m' < 0) = true then (-1 : ℚ) else 1) *
            ((a / 10 ^ (e' + 1) : ℕ) + (a % 10 ^ (e' + 1) : ℕ) / 10 ^ (e' + 1))
          = (if decide (m' < 0) = true then (-1 : ℚ) else 1) *
            (((10 ^ (e' + 1) * (a / 10 ^ (e' + 1)) + a % 10 ^ (e' + 1) : ℕ) : ℚ) /
              10 ^ (e' + 1)) := by
            push_cast
            field_simp
            ring_nf
        _ = (if decide (m' < 0) = true then (-1 : ℚ) else 1) *
            ((a : ℚ) / 10 ^ (e' + 1)) := by rw [← hde]
        _ = (m' : ℚ) / 10 ^ (e' + 1) := by
            rw [mul_div_assoc'] at *
            rw [show (if decide (m' < 0) = true then (-1 : ℚ) else 1) *
              (a : ℚ) = m' from hsgn]

theorem decode_none_nonradians {s : String} {f : ProjForm}
    (hp : parseProj s = some f)
    (hs : ¬(f.suffix = some 'r' ∨ f.suffix = some 'R')) :
    convert_proj_angular_data_to_cf s none =
      some ⟨1, f.numericValue, some "degrees"⟩ := by
  rw [decode_eq hp none]
  simp [hs]

theorem decode_none_radians {s : String} {f : ProjForm}
    (hp : parseProj s = some f)
    (hs : f.suffix = some 'r' ∨ f.suffix = some 'R') :
    convert_proj_angular_data_to_cf s none =
      some ⟨1, f.numericValue, some "radians"⟩ := by
  rw [decode_eq hp none]
  simp [hs, truthy]

theorem degrees_mem_valid : ("degrees" : String) ∈ valid_degrees_units := by
  decide

/-- C3 amended: the round trip holds for canonically rendered texts —
integer digits without redundant leading zeros, a nonempty fractional
part without a redundant trailing zero when a decimal point is present,
no negative zero, and the canonical suffixes (none for degrees, `R` for
radians); and decoding the encoding of any renderable magnitude with
unit `"degrees"` or `"radians"` reproduces the magnitude's value
exactly. -/
theorem c3_round_trip_amended :
    (∀ f : ProjForm, f.Canonical →
      (convert_proj_angular_data_to_cf (String.mk f.render) none).bind
          convert_cf_angular_data_to_proj = some (String.mk f.render)) ∧
    (∀ (mag : Mag) (u : String), mag.render ≠ none →
      (u = "degrees" ∨ u = "radians") →
      ∃ (s : String) (d : Data),
        convert_cf_angular_data_to_proj ⟨1, mag, some u⟩ = some s ∧
        convert_proj_angular_data_to_cf s none = some d ∧
        d.mag.val = mag.val) := by
  constructor
  · intro f hc
    have hwf := hc.1
    have hp := parseProj_render hwf
    have hrender := numericValue_render_canonical hc
    rcases hc.2.1 with hs | hs
    · have hnr : ¬(f.suffix = some 'r' ∨ f.suffix = some 'R') := by
        simp [hs]
      rw [decode_none_nonradians hp hnr]
      show convert_cf_angular_data_to_proj ⟨1, f.numericValue, some "degrees"⟩ =
        some (String.mk f.render)
      rw [encode_degrees degrees_mem_valid, hrender]
      exact congrArg some (congrArg String.mk (by
        simp [ProjForm.render, hs]))
    · rw [decode_none_radians hp (Or.inr hs)]
      show convert_cf_angular_data_to_proj ⟨1, f.numericValue, some "radians"⟩ =
        some (String.mk f.render)
      rw [encode_radians, hrender]
      simp only [Option.map_some']
      refine congrArg some (string_ext ?_)
      rw [String.data_append]
      simp [ProjForm.render, hs]
  · intro mag u hrend hu
    match mag, hrend with
    | .mint n, _ =>
      have hifd : ∀ l l' : List Char,
          (if decide (n < 0) = true then l else l') =
            (if n < 0 then l else l') := by
        intro l l'
        by_cases h : n < 0 <;> simp [h]
      have hdata : (intStr n).data =
          ProjForm.render ⟨decide (n < 0), natToDigits n.natAbs, none, none⟩ := by
        rw [intStr_data, ProjForm.render]
        simp only [hifd]
        simp
      have hdataR : (intStr n ++ "R").data =
          ProjForm.render ⟨decide (n < 0), natToDigits n.natAbs, none, some 'R'⟩ := by
        rw [String.data_append, intStr_data, ProjForm.render]
        simp only [hifd]
        simp
      have hval : ∀ sfx, ((ProjForm.numericValue
          ⟨decide (n < 0), natToDigits n.natAbs, none, sfx⟩).val) =
          (Mag.mint n).val := by
        intro sfx
        rw [numericValue_val, ratVal_int_form]
        simp [Mag.val]
      rcases hu with hu | hu <;> subst hu
      · have hp := parseProj_of_grammar (WF_int_form n (Or.inl rfl)) hdata
        exact ⟨intStr n, _, encode_degrees degrees_mem_valid,
          decode_none_nonradians hp (by simp), hval none⟩
      · have hp := parseProj_of_grammar
          (WF_int_form n (Or.inr ⟨'R', rfl, by decide⟩)) hdataR
        exact ⟨intStr n ++ "R", _,
          by rw [encode_radians]; rfl,
          decode_none_radians hp (Or.inr rfl), hval (some 'R')⟩
    | .mfloat m e, _ =>
      obtain ⟨b, ds, fls, hdata, hdsd, hdsne, hflsd, hval⟩ := floatStr_form m e
      have hwfF : ∀ sfx, (sfx = none ∨ ∃ c, sfx = some c ∧ c ∈ suffixChars) →
          ProjForm.WF ⟨b, ds, some fls, sfx⟩ = true := by
        intro sfx hs
        simp only [ProjForm.WF, Bool.and_eq_true, Bool.not_eq_true',
          List.isEmpty_eq_false]
        refine ⟨⟨⟨hdsne, hdsd⟩, hflsd⟩, ?_⟩
        rcases hs with h | ⟨c, hc, hmem⟩
        · simp [h]
        · simp [hc, hmem]
      have hratF : ∀ sfx, ProjForm.ratVal ⟨b, ds, some fls, sfx⟩ =
          (m : ℚ) / 10 ^ e := by
        intro sfx
        simpa [ProjForm.ratVal] using hval
      have hvalF : ∀ sfx, ((ProjForm.numericValue ⟨b, ds, some fls, sfx⟩).val) =
          (Mag.mfloat m e).val := by
        intro sfx
        rw [numericValue_val, hratF]
        push_cast
        simp [Mag.val]
      have hdata1 : (floatStr m e).data =
          ProjForm.render ⟨b, ds, some fls, none⟩ := by
        rw [hdata, ProjForm.render]
        simp
      have hdataR : (floatStr m e ++ "R").data =
          ProjForm.render ⟨b, ds, some fls, some 'R'⟩ := by
        rw [String.data_append, hdata, ProjForm.render]
      rcases hu with hu | hu <;> subst hu
      · have hp := parseProj_of_grammar (hwfF none (Or.inl rfl)) hdata1
        exact ⟨floatStr m e, _, encode_degrees degrees_mem_valid,
          decode_none_nonradians hp (by simp), hvalF none⟩
      · have hp := parseProj_of_grammar
          (hwfF (some 'R') (Or.inr ⟨'R', rfl, by decide⟩)) hdataR
        exact ⟨floatStr m e ++ "R", _,
          by rw [encode_radians]; rfl,
          decode_none_radians hp (Or.inr rfl), hvalF (some 'R')⟩

/-- Witness for C3 at the canonical text `"1.5R"` (first direction) and
the magnitude `(-4, "degrees")` (second direction). -/
theorem c3_round_trip_amended_witness :
    (ProjForm.Canonical ⟨false, ['1'], some ['5'], some 'R'⟩) ∧
      (convert_proj_angular_data_to_cf
          (String.mk (ProjForm.render ⟨false, ['1'], some ['5'], some 'R'⟩))
          none).bind convert_cf_angular_data_to_proj =
        some (String.mk (ProjForm.render ⟨false, ['1'], some ['5'], some 'R'⟩)) ∧
      (Mag.render (Mag.mint (-4)) ≠ none) ∧
      ∃ (s : String) (d : Data),
        convert_cf_angular_data_to_proj ⟨1, Mag.mint (-4), some "degrees"⟩ =
            some s ∧
          convert_proj_angular_data_to_cf s none = some d ∧
          d.mag.val = (Mag.mint (-4)).val :=
  ⟨⟨by decide, by decide, by decide, ⟨by decide, by decide⟩, by decide⟩,
    c3_round_trip_amended.1 ⟨false, ['1'], some ['5'], some 'R'⟩
      ⟨by decide, by decide, by decide, ⟨by decide, by decide⟩, by decide⟩,
    by decide,
    c3_round_trip_amended.2 (Mag.mint (-4)) "degrees" (by decide)
      (Or.inl rfl)⟩

/-! ## Claim C5 -/

/-- The unit vocabulary exactly as claim C5 states it: `"radians"`,
`"degrees"`, and the cross products of `{"degree","degrees"}` with the
latitude and longitude ending forms. The bare singular `"degree"` is not
in this list. -/
def claimedUnitVocabularyC5 : List String :=
  ["radians", "degrees"] ++ valid_cf_lat_units ++ valid_cf_lon_units

/-- Counterexample to C5 as stated: the encoder accepts the bare unit
`"degree"` (it is a member of `degrees_unit_prefix`, which the source
includes in `valid_degrees_units`), although it is outside the claim's
vocabulary. -/
theorem c5_vocabulary_counterexample :
    convert_cf_angular_data_to_proj ⟨1, Mag.mint 0, some "degree"⟩ =
        some "0" ∧
      ("degree" : String) ∉ claimedUnitVocabularyC5 := by
  constructor
  · rfl
  · decide

theorem explicit_vocab_eq :
    valid_degrees_units ++ ["radians"] =
      ["degree", "degrees", "degree_north", "degree_N", "degreeN",
        "degrees_north", "degrees_N", "degreesN", "degree_east", "degree_E",
        "degreeE", "degrees_east", "degrees_E", "degreesE", "radians"] := by
  decide

/-- C5 amended: encoding raises an error if and only if the input is not
of size one, carries no unit, or carries a unit outside the accepted
vocabulary — which is the claim's vocabulary plus the bare singular
`"degree"`; the two-element, unit-less and `"kelvin"` inputs all fail. -/
theorem c5_encode_error_iff_amended :
    (∀ d : Data, d.mag.render ≠ none →
      (convert_cf_angular_data_to_proj d = none ↔
        d.size ≠ 1 ∨ d.units = none ∨
          ∃ u, d.units = some u ∧
            u ∉ ["degree", "degrees", "degree_north", "degree_N", "degreeN",
              "degrees_north", "degrees_N", "degreesN", "degree_east",
              "degree_E", "degreeE", "degrees_east", "degrees_E", "degreesE",
              "radians"])) ∧
    convert_cf_angular_data_to_proj ⟨2, Mag.mint 0, some "degrees"⟩ = none ∧
    convert_cf_angular_data_to_proj ⟨1, Mag.mint 0, none⟩ = none ∧
    convert_cf_angular_data_to_proj ⟨1, Mag.mint 0, some "kelvin"⟩ = none := by
  refine ⟨?_, rfl, rfl, rfl⟩
  intro d hrend
  obtain ⟨sz, mag, units⟩ := d
  have hrend' : mag.render ≠ none := hrend
  obtain ⟨t, ht⟩ := Option.ne_none_iff_exists'.mp hrend'
  rw [← explicit_vocab_eq]
  by_cases hsz : sz = 1
  · subst hsz
    match units with
    | none => simp [convert_cf_angular_data_to_proj]
    | some u =>
      by_cases hd : u ∈ valid_degrees_units
      · have henc : convert_cf_angular_data_to_proj ⟨1, mag, some u⟩ =
            mag.render := by
          simp [convert_cf_angular_data_to_proj, hd]
        have hmem : u ∈ valid_degrees_units ++ ["radians"] :=
          List.mem_append_left _ hd
        rw [henc, ht]
        simp [hmem]
        exact fun h => absurd hd h
      · by_cases hrad : u = "radians"
        · subst hrad
          have hmem : ("radians" : String) ∈ valid_degrees_units ++ ["radians"] :=
            List.mem_append_right _ (by simp)
          rw [encode_radians mag, ht]
          simp [hmem]
        · have henc : convert_cf_angular_data_to_proj ⟨1, mag, some u⟩ =
              none := by
            simp [convert_cf_angular_data_to_proj, hd, hrad]
          have hnm : u ∉ valid_degrees_units ++ ["radians"] := by
            intro hmem'
            rcases List.mem_append.mp hmem' with h | h
            · exact hd h
            · exact hrad (by simpa using h)
          rw [henc]
          simp [hnm]
          exact ⟨hd, hrad⟩
  · have henc : convert_cf_angular_data_to_proj ⟨sz, mag, units⟩ = none := by
      simp [convert_cf_angular_data_to_proj, hsz]
    rw [henc]
    simp [hsz]

/-- Witness for C5 at the failing unit `"kelvin"`. -/
theorem c5_encode_error_iff_amended_witness :
    (Mag.render (Mag.mint 0) ≠ none) ∧
      (convert_cf_angular_data_to_proj ⟨1, Mag.mint 0, some "kelvin"⟩ = none ↔
        (1 : ℕ) ≠ 1 ∨ (some "kelvin" : Option String) = none ∨
          ∃ u, (some "kelvin" : Option String) = some u ∧
            u ∉ ["degree", "degrees", "degree_north", "degree_N", "degreeN",
              "degrees_north", "degrees_N", "degreesN", "degree_east",
              "degree_E", "degreeE", "degrees_east", "degrees_E", "degreesE",
              "radians"]) :=
  ⟨by decide, c5_encode_error_iff_amended.1 ⟨1, Mag.mint 0, some "kelvin"⟩
    (by decide)⟩

/-! ## Claim C6 -/

theorem digits_chars {l : List Char} (h : l.all Char.isDigit = true) :
    ∀ c ∈ l, c.isDigit = true := by
  rw [List.all_eq_true] at h
  exact h

/-- Every character of a rendered magnitude is a digit, a minus sign or
a decimal point. -/
theorem render_chars {mag : Mag} {s : String} (h : mag.render = some s) :
    ∀ c ∈ s.data, c.isDigit = true ∨ c = '-' ∨ c = '.' := by
  have hint : ∀ (n : ℤ) (c : Char), c ∈ (intStr n).data →
      c.isDigit = true ∨ c = '-' ∨ c = '.' := by
    intro n c hm
    rw [intStr_data] at hm
    rcases List.mem_append.mp hm with hm | hm
    · by_cases hn : n < 0
      · rw [if_pos hn] at hm
        simp only [List.mem_singleton] at hm
        exact Or.inr (Or.inl hm)
      · rw [if_neg hn] at hm
        cases hm
    · exact Or.inl (digits_chars (natToDigits_all_digits _) c hm)
  match mag with
  | .mint n =>
    injection h with h
    subst h
    exact hint n
  | .mfloat m e =>
    injection h with h
    subst h
    intro c hm
    rw [floatStr] at hm
    by_cases hz : (normDec m e).2 = 0
    · rw [if_pos hz, String.data_append] at hm
      rcases List.mem_append.mp hm with hm | hm
      · exact hint _ c hm
      · have hm' : c = '.' ∨ c = '0' := by simpa using hm
        rcases hm' with hm' | hm'
        · exact Or.inr (Or.inr hm')
        · exact Or.inl (by rw [hm']; decide)
    · rw [if_neg hz] at hm
      simp only [String.data_append] at hm
      rcases List.mem_append.mp hm with hm | hm
      · rcases List.mem_append.mp hm with hm | hm
        · rcases List.mem_append.mp hm with hm | hm
          · by_cases hn : (normDec m e).1 < 0
            · rw [if_pos hn] at hm
              simp only [show ("-" : String).data = ['-'] from rfl,
                List.mem_singleton] at hm
              exact Or.inr (Or.inl hm)
            · rw [if_neg hn] at hm
              simp at hm
          · exact Or.inl (digits_chars (natToDigits_all_digits _) c hm)
        · simp only [show ("." : String).data = ['.'] from rfl,
            List.mem_singleton] at hm
          exact Or.inr (Or.inr hm)
      · exact Or.inl (digits_chars (natToPadded_digits _ _).1 c hm)

/-- Inversion of the encoder: a successful encoding is the rendered
magnitude, bare or with an `R` appended. -/
theorem encode_inv {d : Data} {s : String}
    (h : convert_cf_angular_data_to_proj d = some s) :
    ∃ t, d.mag.render = some t ∧ (s = t ∨ s = t ++ "R") := by
  simp only [convert_cf_angular_data_to_proj] at h
  split at h
  · cases h
  split at h
  · cases h
  split at h
  · exact ⟨s, h, Or.inl rfl⟩
  split at h
  · match hr : d.mag.render with
    | none => rw [hr] at h; cases h
    | some t =>
      rw [hr] at h
      simp only [Option.map_some', Option.some.injEq] at h
      exact ⟨t, rfl, Or.inr h.symm⟩
  · cases h

/-- C6: a scalar with a recognized degree-family unit encodes as the
bare rendered numeral with no suffix; a scalar with unit `"radians"`
encodes as the numeral followed by `R`; the encoder never emits the
`d`, `D` or `°` suffixes; `(0, "degrees_north")` encodes as `"0"` and
`(0, "radians")` as `"0R"`. -/
theorem c6_encode_forms :
    (∀ (mag : Mag) (s : String) (u : String), mag.render = some s →
      u ∈ valid_degrees_units →
      convert_cf_angular_data_to_proj ⟨1, mag, some u⟩ = some s) ∧
    (∀ (mag : Mag) (s : String), mag.render = some s →
      convert_cf_angular_data_to_proj ⟨1, mag, some "radians"⟩ =
        some (s ++ "R")) ∧
    (∀ (d : Data) (s : String), convert_cf_angular_data_to_proj d = some s →
      ∀ c ∈ s.data, c ≠ 'd' ∧ c ≠ 'D' ∧ c ≠ '°') ∧
    convert_cf_angular_data_to_proj ⟨1, Mag.mint 0, some "degrees_north"⟩ =
      some "0" ∧
    convert_cf_angular_data_to_proj ⟨1, Mag.mint 0, some "radians"⟩ =
      some "0R" := by
  refine ⟨?_, ?_, ?_, rfl, rfl⟩
  · intro mag s u hr hu
    rw [encode_degrees hu, hr]
  · intro mag s hr
    rw [encode_radians, hr]
    rfl
  · intro d s h c hm
    obtain ⟨t, ht, hs | hs⟩ := encode_inv h <;> subst hs
    · rcases render_chars ht c hm with hc | hc | hc
      · refine ⟨?_, ?_, ?_⟩ <;> intro he <;> rw [he] at hc <;> cases hc
      · subst hc; refine ⟨by decide, by decide, by decide⟩
      · subst hc; refine ⟨by decide, by decide, by decide⟩
    · rw [String.data_append] at hm
      rcases List.mem_append.mp hm with hm | hm
      · rcases render_chars ht c hm with hc | hc | hc
        · refine ⟨?_, ?_, ?_⟩ <;> intro he <;> rw [he] at hc <;> cases hc
        · subst hc; refine ⟨by decide, by decide, by decide⟩
        · subst hc; refine ⟨by decide, by decide, by decide⟩
      · simp only [show ("R" : String).data = ['R'] from rfl,
          List.mem_singleton] at hm
        subst hm
        refine ⟨by decide, by decide, by decide⟩

/-- Witness for C6 at the magnitude `-1.5` with unit `"degrees_east"`. -/
theorem c6_encode_forms_witness :
    (Mag.render (Mag.mfloat (-15) 1) = some "-1.5") ∧
      ("degrees_east" : String) ∈ valid_degrees_units ∧
      convert_cf_angular_data_to_proj
        ⟨1, Mag.mfloat (-15) 1, some "degrees_east"⟩ = some "-1.5" :=
  ⟨by decide, by decide,
    c6_encode_forms.1 (Mag.mfloat (-15) 1) "-1.5" "degrees_east"
      (by decide) (by decide)⟩

/-! ## Claim C7 -/

/-- Counterexample to C7 as stated: `"1r"` is a valid input whose
numeral contains no decimal point, yet decoding it with latitude context
returns a float-typed magnitude (the radians-to-degrees conversion
result), not an integer-typed one. -/
theorem c7_type_fidelity_counterexample :
    convert_proj_angular_data_to_cf "1r" (some "lat") =
        some ⟨1, Mag.mconv 1 0, some "degrees_north"⟩ ∧
      (Mag.mconv 1 0).isIntTyped = false := by
  constructor
  · rfl
  · rfl

/-- C7 amended: the int/float type of the decoded magnitude follows the
presence of a decimal point in the numeral, except that a radians suffix
combined with a truthy context yields a float (the conversion result);
the magnitude's value is the numeral's value, possibly times `180 / π`,
and its sign is the numeral's sign. -/
theorem c7_type_fidelity_amended :
    ∀ (f : ProjForm) (ctx : Option String) (d : Data), f.WF = true →
      convert_proj_angular_data_to_cf (String.mk f.render) ctx = some d →
      ((∀ fs, f.fracDigits = some fs → d.mag.isIntTyped = false) ∧
        (f.fracDigits = none →
          ¬((f.suffix = some 'r' ∨ f.suffix = some 'R') ∧ truthy ctx = true) →
          d.mag.isIntTyped = true) ∧
        ((f.suffix = some 'r' ∨ f.suffix = some 'R') → truthy ctx = true →
          d.mag.isIntTyped = false) ∧
        (d.mag.val = (f.ratVal : ℝ) ∨
          d.mag.val = (f.ratVal : ℝ) * (180 / Real.pi)) ∧
        (d.mag.val < 0 ↔ (f.ratVal : ℝ) < 0)) := by
  intro f ctx d hwf hd
  have hp := parseProj_render hwf
  rw [decode_eq hp ctx] at hd
  injection hd with hd
  subst hd
  have hfac : (0 : ℝ) < 180 / Real.pi := by positivity
  by_cases hc : (f.suffix = some 'r' ∨ f.suffix = some 'R') ∧ truthy ctx = true
  · rw [if_pos hc]
    refine ⟨fun fs hfs => conform_not_int f, fun _ hn => absurd hc hn,
      fun _ _ => conform_not_int f, Or.inr (conform_numericValue_val f), ?_⟩
    rw [conform_numericValue_val f]
    constructor
    · intro h
      by_contra hge
      push_neg at hge
      nlinarith
    · intro h
      nlinarith
  · rw [if_neg hc]
    refine ⟨?_, ?_, ?_, Or.inl (numericValue_val f), ?_⟩
    · intro fs hfs
      simp [ProjForm.numericValue, hfs, Mag.isIntTyped]
    · intro hfn _
      simp [ProjForm.numericValue, hfn, Mag.isIntTyped]
    · intro h1 h2
      exact absurd ⟨h1, h2⟩ hc
    · rw [numericValue_val f]

/-- Witness for C7 at the input `"-4"` with no context. -/
theorem c7_type_fidelity_amended_witness :
    (ProjForm.WF ⟨true, ['4'], none, none⟩ = true) ∧
      convert_proj_angular_data_to_cf
          (String.mk (ProjForm.render ⟨true, ['4'], none, none⟩)) none =
        some ⟨1, Mag.mint (-4), some "degrees"⟩ ∧
      ((∀ fs, ProjForm.fracDigits ⟨true, ['4'], none, none⟩ = some fs →
          (Mag.mint (-4)).isIntTyped = false) ∧
        (ProjForm.fracDigits ⟨true, ['4'], none, none⟩ = none →
          ¬((ProjForm.suffix ⟨true, ['4'], none, none⟩ = some 'r' ∨
            ProjForm.suffix ⟨true, ['4'], none, none⟩ = some 'R') ∧
            truthy none = true) →
          (Mag.mint (-4)).isIntTyped = true) ∧
        ((ProjForm.suffix ⟨true, ['4'], none, none⟩ = some 'r' ∨
          ProjForm.suffix ⟨true, ['4'], none, none⟩ = some 'R') →
          truthy none = true → (Mag.mint (-4)).isIntTyped = false) ∧
        ((Mag.mint (-4)).val =
            ((ProjForm.ratVal ⟨true, ['4'], none, none⟩ : ℚ) : ℝ) ∨
          (Mag.mint (-4)).val =
            ((ProjForm.ratVal ⟨true, ['4'], none, none⟩ : ℚ) : ℝ) *
              (180 / Real.pi)) ∧
        ((Mag.mint (-4)).val < 0 ↔
          ((ProjForm.ratVal ⟨true, ['4'], none, none⟩ : ℚ) : ℝ) < 0)) :=
  ⟨by decide, by decide,
    c7_type_fidelity_amended ⟨true, ['4'], none, none⟩ none
      ⟨1, Mag.mint (-4), some "degrees"⟩ (by decide) (by decide)⟩

/-! ## Claim C8 -/

/-- The concatenation of `" +key=value"` for each entry, in iteration
order, as claim C8 describes it. -/
def concatParams : List (String × PyVal) → String
  | [] => ""
  | p :: rest => " +" ++ p.1 ++ "=" ++ (p.2.toStr.getD "") ++ concatParams rest

theorem projStringFold_ok :
    ∀ l : List (String × PyVal), (∀ p ∈ l, p.2.toStr ≠ none) →
      ∀ acc, projStringFold acc l = some (acc ++ concatParams l) := by
  intro l
  induction l with
  | nil =>
    intro _ acc
    rw [concatParams, String.append_empty]
    rfl
  | cons p rest ih =>
    intro h acc
    obtain ⟨c, v⟩ := p
    obtain ⟨sv, hv⟩ := Option.ne_none_iff_exists'.mp (h (c, v) (by simp))
    rw [projStringFold, hv]
    show projStringFold (acc ++ " +" ++ c ++ "=" ++ sv) rest =
      some (acc ++ concatParams ((c, v) :: rest))
    rw [ih (fun q hq => h q (by simp [hq])), concatParams, hv]
    refine congrArg some (string_ext ?_)
    simp [String.data_append]

theorem projStringFold_fail :
    ∀ l : List (String × PyVal), (∃ p ∈ l, p.2.toStr = none) →
      ∀ acc, projStringFold acc l = none := by
  intro l
  induction l with
  | nil => rintro ⟨p, hp, -⟩; cases hp
  | cons p rest ih =>
    rintro ⟨q, hq, hqn⟩ acc
    obtain ⟨c, v⟩ := p
    rcases List.mem_cons.mp hq with hq | hq
    · subst hq
      rw [projStringFold, hqn]
    · rw [projStringFold]
      match hv : PyVal.toStr v with
      | none => rfl
      | some sv => exact ih ⟨q, hq, hqn⟩ _

/-- C8: with every value convertible to a string, the proj-string is the
projection identifier prefix `+proj=<id>` followed by the concatenation
of `" +key=value"` in iteration order; a non-stringifiable value makes
assembly fail; `Mercator.get_proj_string` assembles `DUMMY_PARAMS` after
`+proj=merc`. -/
theorem c8_proj_string_assembly :
    (∀ spec : List (String × PyVal), (∀ p ∈ spec, p.2.toStr ≠ none) →
      make_proj_string_comp spec = some (concatParams spec) ∧
      ∀ id, get_proj_string id spec =
        some (PROJ_PREFIX ++ "=" ++ id ++ concatParams spec)) ∧
    (∀ spec : List (String × PyVal), (∃ p ∈ spec, p.2.toStr = none) →
      make_proj_string_comp spec = none ∧
      ∀ id, get_proj_string id spec = none) ∧
    Mercator.get_proj_string = some "+proj=merc +a=b +c=0.0" := by
  refine ⟨?_, ?_, rfl⟩
  · intro spec h
    have hmk : make_proj_string_comp spec = some (concatParams spec) := by
      have := projStringFold_ok spec h ""
      rwa [show ("" ++ concatParams spec) = concatParams spec from
        string_ext (by rw [String.data_append]; rfl)] at this
    refine ⟨hmk, fun id => ?_⟩
    rw [get_proj_string, hmk]
    rfl
  · intro spec h
    have hmk : make_proj_string_comp spec = none := projStringFold_fail spec h ""
    refine ⟨hmk, fun id => ?_⟩
    rw [get_proj_string, hmk]
    rfl

/-- Witness for C8 at `DUMMY_PARAMS` (all values stringifiable) and at a
singleton mapping with a non-stringifiable value. -/
theorem c8_proj_string_assembly_witness :
    (∀ p ∈ DUMMY_PARAMS, PyVal.toStr p.2 ≠ none) ∧
      make_proj_string_comp DUMMY_PARAMS = some (concatParams DUMMY_PARAMS) ∧
      (∃ p ∈ [(("x" : String), PyVal.nonRepresentable)], PyVal.toStr p.2 = none) ∧
      make_proj_string_comp [(("x" : String), PyVal.nonRepresentable)] = none :=
  ⟨by decide,
    (c8_proj_string_assembly.1 DUMMY_PARAMS (by decide)).1,
    ⟨("x", PyVal.nonRepresentable), by simp, rfl⟩,
    (c8_proj_string_assembly.2.1 [("x", PyVal.nonRepresentable)]
      ⟨("x", PyVal.nonRepresentable), by simp, rfl⟩).1⟩

end GridMappings
